import Mathlib

/-!
Verification of the chrometrace module (src/chrometrace.rs): a stack-diff
engine that converts sampled call stacks into Chrome Trace Format
Begin/End interval events.

The Rust code is shallowly embedded: `HashMap` becomes an association
list with unique keys (an invariant maintained by the operations),
the monotonic clock `start_ts.elapsed()` becomes an explicit `now : Nat`
argument, and the panicking `HashMap` index in `get_thread_id` becomes an
`Option`, with `none` marking the panic.  Machine integers become `Nat`
(`u64`, `u32`) and `Int` (`i32`), with `% 2^32` at the two points where
the source casts (`thread_ids.len() as u32`, `frame.line as u32`).
-/

set_option maxHeartbeats 1000000

/-- Modelled from the spec: `Frame` (src/stack_trace.rs is not part of the
shown sources).  "Frame {name: string, filename: string, line: integer}.
Value type, compared by (name, filename) and optionally line."  The source
line is an `i32`, modelled as `Int`. -/
structure Frame where
  name : String
  filename : String
  line : Int
deriving DecidableEq, Repr

/-- Modelled from the spec: `StackTrace` / `Sample` (src/stack_trace.rs is
not part of the shown sources).  "Sample {pid: integer, thread_id: 64-bit
integer, thread_name: optional string, frames: ordered sequence of Frame,
innermost-first}."  Only the four fields read by chrometrace.rs are
modelled. -/
structure StackTrace where
  pid : Nat
  thread_id : Nat
  thread_name : Option String
  frames : List Frame
deriving DecidableEq, Repr

/-- String constant for the Begin phase code. -/
def phB : String := "B"

/-- String constant for the End phase code. -/
def phE : String := "E"

/-- String constant for the Metadata phase code. -/
def phM : String := "M"

/-- String constant for the fixed event category. -/
def catName : String := "py-spy"

/-- String constant for the metadata event name. -/
def threadNameLabel : String := "thread_name"

/-- String constant for the empty string (thread name default, metadata
filename). -/
def emptyStr : String := ""

/-- Embeds struct `Args` of chrometrace.rs. -/
structure Args where
  filename : String
  line : Option Nat
  name : Option String
deriving DecidableEq, Repr

/-- Embeds struct `Event` of chrometrace.rs. -/
structure Event where
  args : Args
  cat : String
  name : String
  ph : String
  pid : Nat
  tid : Nat
  ts : Nat
deriving DecidableEq, Repr

/-- Embeds struct `Chrometrace`.  `start_ts : Instant` is replaced by
explicit `now` arguments to `increment` and `write` (microseconds elapsed
since construction); the two `HashMap`s become association lists in
insertion order. -/
structure Chrometrace where
  events : List Event
  prev_traces : List (Nat × StackTrace)
  show_linenumbers : Bool
  thread_ids : List (Nat × Nat)
deriving DecidableEq, Repr

/-- Embeds `Chrometrace::new`. -/
def Chrometrace.new (show_linenumbers : Bool) : Chrometrace :=
  { events := [], prev_traces := [], show_linenumbers := show_linenumbers,
    thread_ids := [] }

/-- Embeds `Chrometrace::should_merge_frames`. -/
def Chrometrace.should_merge_frames (st : Chrometrace) (a b : Frame) : Bool :=
  a.name == b.name && a.filename == b.filename &&
    (!st.show_linenumbers || a.line == b.line)

/-- Embeds `frame.line as u32` (an `i32` reinterpreted as `u32`). -/
def lineU32 (n : Int) : Nat := (n % (4294967296 : Int)).toNat

/-- Embeds `Chrometrace::get_thread_id`; the panicking `HashMap` index
becomes an `Option` lookup, `none` marking the panic. -/
def Chrometrace.get_thread_id (st : Chrometrace) (trace : StackTrace) : Option Nat :=
  st.thread_ids.lookup trace.thread_id

/-- Builds the `Event` struct literal of `Chrometrace::event`, given the
already-resolved remapped thread id. -/
def mkEvent (show_linenumbers : Bool) (tid pid : Nat) (frame : Frame)
    (phase : String) (ts : Nat) : Event :=
  { tid := tid, pid := pid, name := frame.name, cat := catName,
    ph := phase, ts := ts,
    args := { filename := frame.filename,
              line := if show_linenumbers then some (lineU32 frame.line) else none,
              name := none } }

/-- Embeds `Chrometrace::event` (the `Option` propagates the potential
`get_thread_id` panic). -/
def Chrometrace.event (st : Chrometrace) (trace : StackTrace) (frame : Frame)
    (phase : String) (ts : Nat) : Option Event :=
  (st.get_thread_id trace).map fun tid =>
    mkEvent st.show_linenumbers tid trace.pid frame phase ts

/-- Builds the metadata `Event` pushed by `Chrometrace::record_new_thread`,
given the already-resolved remapped thread id. -/
def mdEvent (trace : StackTrace) (tid : Nat) : Event :=
  { args := { filename := emptyStr, line := none,
              name := some (toString trace.thread_id ++ ": " ++
                             trace.thread_name.getD emptyStr) },
    cat := catName, name := threadNameLabel, ph := phM,
    pid := trace.pid, tid := tid, ts := 0 }

/-- Embeds `Chrometrace::record_new_thread`.  `self.thread_ids.len() as
u32` becomes `% 2^32`; the `get_thread_id` call made after the insert is
kept as an `Option` (it in fact always succeeds). -/
def Chrometrace.record_new_thread (st : Chrometrace) (trace : StackTrace) :
    Option Chrometrace :=
  if (st.thread_ids.lookup trace.thread_id).isSome then some st
  else
    let remapped_id := st.thread_ids.length % 4294967296
    let st1 : Chrometrace :=
      { st with thread_ids := st.thread_ids ++ [(trace.thread_id, remapped_id)] }
    (st1.get_thread_id trace).map fun tid =>
      { st1 with events := st1.events ++ [mdEvent trace tid] }

/-- Embeds `Iterator::position` over a list of frame pairs: index of the
first pair that should not be merged. -/
def firstMismatch (st : Chrometrace) : List (Frame × Frame) → Option Nat
  | [] => none
  | p :: rest =>
    if st.should_merge_frames p.1 p.2 then (firstMismatch st rest).map (· + 1)
    else some 0

/-- Embeds the `new_idx` computation of `Chrometrace::increment`:
`prev_frames.iter().rev().zip(trace.frames.iter().rev())
  .position(|(a, b)| !should_merge_frames(a, b))
  .unwrap_or(min(prev_frames.len(), trace.frames.len()))`. -/
def Chrometrace.new_idx (st : Chrometrace) (prev_frames frames : List Frame) : Nat :=
  (firstMismatch st (prev_frames.reverse.zip frames.reverse)).getD
    (min prev_frames.length frames.length)

/-- Embeds `HashMap::remove` on the previous-trace map (the value, read
beforehand via `lookup`, is returned separately). -/
def removeKey (l : List (Nat × StackTrace)) (k : Nat) : List (Nat × StackTrace) :=
  l.filter fun p => p.1 != k

/-- Embeds `Chrometrace::increment`.  `none` marks the (unreachable)
`get_thread_id` panic; the always-`Ok` `std::io::Result` of the source has
no other error path. -/
def Chrometrace.increment (st : Chrometrace) (trace : StackTrace) (now : Nat) :
    Option Chrometrace :=
  match st.record_new_thread trace with
  | none => none
  | some st1 =>
    let prev_frames := ((st1.prev_traces.lookup trace.thread_id).map
      StackTrace.frames).getD []
    let st2 : Chrometrace :=
      { st1 with prev_traces := removeKey st1.prev_traces trace.thread_id }
    let n := st2.new_idx prev_frames trace.frames
    match ((prev_frames.reverse.drop n).reverse).mapM
            (fun f => st2.event trace f phE now),
          (trace.frames.reverse.drop n).mapM
            (fun f => st2.event trace f phB now) with
    | some ends, some begins =>
      some { st2 with
             events := st2.events ++ ends ++ begins,
             prev_traces := st2.prev_traces ++ [(trace.thread_id, trace)] }
    | _, _ => none

/-- Embeds `Chrometrace::write` (serialization aside): the returned pair is
the full event list handed to `serde_json::to_string` and the — untouched —
engine state (`write` takes `&self`). -/
def Chrometrace.write (st : Chrometrace) (now : Nat) :
    Option (List Event × Chrometrace) :=
  match st.prev_traces.mapM
      (fun p => p.2.frames.mapM (fun f => st.event p.2 f phE now)) with
  | some closing => some (st.events ++ closing.flatten, st)
  | none => none

/-! ## Pure characterizations

The `Option`-valued operations above mirror the source, including the
potential `get_thread_id` panic.  The following total functions compute
the same results; the bridge lemmas below prove that the faithful
operations always succeed and agree with them. -/

/-- Remapped thread id of `i`, with a junk default that is never used on
the success path. -/
def tidD (st : Chrometrace) (i : Nat) : Nat := (st.thread_ids.lookup i).getD 0

/-- Total form of `record_new_thread`. -/
def recordPure (st : Chrometrace) (trace : StackTrace) : Chrometrace :=
  if (st.thread_ids.lookup trace.thread_id).isSome then st
  else
    let remapped_id := st.thread_ids.length % 4294967296
    { st with
      thread_ids := st.thread_ids ++ [(trace.thread_id, remapped_id)],
      events := st.events ++ [mdEvent trace remapped_id] }

/-- Total form of `increment`. -/
def incrementPure (st : Chrometrace) (trace : StackTrace) (now : Nat) :
    Chrometrace :=
  let st1 := recordPure st trace
  let prev_frames := ((st1.prev_traces.lookup trace.thread_id).map
    StackTrace.frames).getD []
  let st2 : Chrometrace :=
    { st1 with prev_traces := removeKey st1.prev_traces trace.thread_id }
  let n := st2.new_idx prev_frames trace.frames
  let tid := tidD st2 trace.thread_id
  let ends := ((prev_frames.reverse.drop n).reverse).map
    (fun f => mkEvent st2.show_linenumbers tid trace.pid f phE now)
  let begins := (trace.frames.reverse.drop n).map
    (fun f => mkEvent st2.show_linenumbers tid trace.pid f phB now)
  { st2 with
    events := st2.events ++ ends ++ begins,
    prev_traces := st2.prev_traces ++ [(trace.thread_id, trace)] }

/-- Event list produced by `write` (original log followed by the
synthesized closing `End` events). -/
def writeEventsPure (st : Chrometrace) (now : Nat) : List Event :=
  st.events ++ (st.prev_traces.map (fun p => p.2.frames.map
    (fun f => mkEvent st.show_linenumbers (tidD st p.2.thread_id)
      p.2.pid f phE now))).flatten

/-- Runs a sequence of `increment` calls, each with its clock reading,
propagating the potential panic. -/
def runO (st : Chrometrace) : List (StackTrace × Nat) → Option Chrometrace
  | [] => some st
  | p :: rest =>
    match st.increment p.1 p.2 with
    | some st1 => runO st1 rest
    | none => none

/-- Total form of `runO`. -/
def runPure (st : Chrometrace) (l : List (StackTrace × Nat)) : Chrometrace :=
  l.foldl (fun s p => incrementPure s p.1 p.2) st

/-- Spec-side definition, following the spec's words: the count of leading
pairwise-equal frames of two lists, before the first mismatch or before
either list is exhausted. -/
def commonPrefixLen (feq : Frame → Frame → Bool) : List Frame → List Frame → Nat
  | a :: as, b :: bs => if feq a b then commonPrefixLen feq as bs + 1 else 0
  | _, _ => 0

/-! ## Concrete data for witnesses and counterexamples -/

/-- Concrete frame used by witnesses. -/
def wFrameF : Frame := ⟨"f", "a.py", 3⟩

/-- Concrete frame used by witnesses, disjoint from `wFrameF`. -/
def wFrameG : Frame := ⟨"g", "b.py", 4⟩

/-- Concrete thread name used by witnesses. -/
def mainStr : String := "main"

/-- Concrete sample of thread 7 with one frame. -/
def w3pt : StackTrace := ⟨1, 7, none, [wFrameF]⟩

/-- Concrete engine state: thread 7 registered with dense id 0 and
previous sample `w3pt`. -/
def w3st : Chrometrace :=
  { events := [], prev_traces := [(7, w3pt)], show_linenumbers := true,
    thread_ids := [(7, 0)] }

/-- Concrete sample of thread 7 with one frame disjoint from `w3pt`. -/
def w2tr : StackTrace := ⟨1, 7, none, [wFrameG]⟩

/-- Concrete sample of thread 7 with an empty frame list. -/
def w5tr : StackTrace := ⟨1, 7, none, []⟩

/-- Concrete sample of thread 3. -/
def w9tr : StackTrace := ⟨1, 3, some mainStr, [wFrameF]⟩

/-- Engine state after a one-frame sample and then an empty sample for
thread 7, via the faithful `increment` (`runO`). -/
def c5state : Chrometrace :=
  (runO (Chrometrace.new true) [(w3pt, 0), (w5tr, 1)]).getD (Chrometrace.new true)

/-! ## Serialization model (serde derive), thread-registry runs, and the
invariant used for the matched-interval theorem -/

/-- JSON values as far as the emitted events need them. -/
inductive JValue where
  | jstr : String → JValue
  | jnum : Nat → JValue
  | jnull : JValue
deriving DecidableEq, Repr

/-- Embeds serde's derived serialization of `Args`: fields in declaration
order; `line : Option<u32>` carries no skip attribute, so `None`
serializes as an explicit `null`; `name` is marked
`skip_serializing_if = "Option::is_none"` and is omitted when absent. -/
def argsToJson (a : Args) : List (String × JValue) :=
  [("filename", JValue.jstr a.filename),
   ("line", match a.line with
            | some v => JValue.jnum v
            | none => JValue.jnull)]
  ++ (match a.name with
      | some v => [("name", JValue.jstr v)]
      | none => [])

/-- Frame equal to `wFrameF` except for its line. -/
def wFrameF2 : Frame := ⟨"f", "a.py", 99⟩

/-- Sample of thread 7 whose only frame differs from `w3pt` only in line. -/
def c7tr : StackTrace := ⟨1, 7, none, [wFrameF2]⟩

/-- Engine state with `show_linenumbers = false` after one sample. -/
def c7state : Chrometrace :=
  (runO (Chrometrace.new false) [(w9tr, 0)]).getD (Chrometrace.new false)

/-- Sample of thread `i` with no frames, for thread-registry runs. -/
def natSample (i : Nat) : StackTrace := ⟨0, i, none, []⟩

/-- Engine state after one sample for each of the native thread ids
`0, 1, ..., n-1`, in that order. -/
def threadRun (n : Nat) : Chrometrace :=
  runPure (Chrometrace.new false) ((List.range n).map (fun i => (natSample i, 0)))

/-- Implicit invariant of claim C10: every key of the previous-sample map
is a key of the dense-id map (and the stored sample's `thread_id` is its
key). -/
def WellFormed (st : Chrometrace) : Prop :=
  ∀ p ∈ st.prev_traces,
    (st.thread_ids.lookup p.1).isSome = true ∧ p.2.thread_id = p.1

/-- Identity of a stack position in the output: the (pid, tid, name,
filename) quadruple of claim C4. -/
structure EKey where
  pid : Nat
  tid : Nat
  name : String
  filename : String
deriving DecidableEq, Repr

/-- Key of an emitted event. -/
def evKey (e : Event) : EKey := ⟨e.pid, e.tid, e.name, e.args.filename⟩

/-- Whether an event is an interval event (`Begin` or `End`). -/
def isBE (e : Event) : Bool := e.ph == phB || e.ph == phE

/-- Number of `Begin` events with key `k`. -/
def cntB (es : List Event) (k : EKey) : Nat :=
  es.countP (fun e => e.ph == phB && decide (evKey e = k))

/-- Number of `End` events with key `k`. -/
def cntE (es : List Event) (k : EKey) : Nat :=
  es.countP (fun e => e.ph == phE && decide (evKey e = k))

/-- Number of frames of one stored previous sample whose event key is `k`. -/
def frameKeyCnt (st : Chrometrace) (p : Nat × StackTrace) (k : EKey) : Nat :=
  p.2.frames.countP (fun f =>
    decide ((⟨p.2.pid, tidD st p.2.thread_id, f.name, f.filename⟩ : EKey) = k))

/-- Number of currently open intervals with key `k` (frames of all stored
previous samples). -/
def openCnt (st : Chrometrace) (k : EKey) : Nat :=
  (st.prev_traces.map (fun p => frameKeyCnt st p k)).sum

/-- Invariant tying the event log to the open stacks: `pidOf` fixes each
thread's process id, `T` bounds the timestamps of interval events seen so
far.  `bal` says every key has exactly `openCnt` more Begins than Ends,
`dom` that no prefix closes more than it opened, `bound`/`mono` that
interval-event timestamps are nondecreasing along the log and at most
`T`. -/
structure LogInv (pidOf : Nat → Nat) (st : Chrometrace) (T : Nat) : Prop where
  uniq : (st.prev_traces.map Prod.fst).Nodup
  reg : ∀ p ∈ st.prev_traces, (st.thread_ids.lookup p.1).isSome = true
  keyEq : ∀ p ∈ st.prev_traces, p.2.thread_id = p.1
  pids : ∀ p ∈ st.prev_traces, p.2.pid = pidOf p.1
  bal : ∀ k, cntB st.events k = cntE st.events k + openCnt st k
  dom : ∀ n k, cntE (st.events.take n) k ≤ cntB (st.events.take n) k
  bound : ∀ e ∈ st.events, isBE e = true → e.ts ≤ T
  mono : ∀ i j ei ej, i ≤ j → st.events.get? i = some ei →
    st.events.get? j = some ej → isBE ei = true → isBE ej = true →
    ei.ts ≤ ej.ts

/-- Sample of thread 5 used by the matched-interval witness. -/
def w4tr : StackTrace := ⟨1, 5, none, [wFrameF]⟩

/-- Engine state after one `increment` of `w4tr` at time 0. -/
def w4run : Chrometrace := runPure (Chrometrace.new true) [(w4tr, 0)]

/-- Written event list for the matched-interval witness. -/
def w4events : List Event := writeEventsPure w4run 1

/-- Event key of `wFrameF` on thread 5 (dense id 0) in process 1. -/
def w4key : EKey := ⟨1, 0, wFrameF.name, wFrameF.filename⟩

/-! ## Association-list lookup helpers -/

theorem lookup_append_left {β : Type} {l₁ l₂ : List (Nat × β)} {k : Nat}
    (h : (l₁.lookup k).isSome) : (l₁ ++ l₂).lookup k = l₁.lookup k := by
  induction l₁ with
  | nil => simp [List.lookup] at h
  | cons a t ih =>
    obtain ⟨a1, a2⟩ := a
    cases hk : k == a1 with
    | true => simp [List.lookup_cons, hk]
    | false =>
      simp only [List.lookup_cons, hk, List.cons_append] at h ⊢
      exact ih h

theorem lookup_append_right {β : Type} {l₁ l₂ : List (Nat × β)} {k : Nat}
    (h : l₁.lookup k = none) : (l₁ ++ l₂).lookup k = l₂.lookup k := by
  induction l₁ with
  | nil => simp
  | cons a t ih =>
    obtain ⟨a1, a2⟩ := a
    cases hk : k == a1 with
    | true => simp [List.lookup_cons, hk] at h
    | false =>
      simp only [List.lookup_cons, hk, List.cons_append] at h ⊢
      exact ih h

theorem lookup_singleton_self {β : Type} (k : Nat) (v : β) :
    ([(k, v)] : List (Nat × β)).lookup k = some v := by
  simp [List.lookup_cons]

theorem lookup_mem {β : Type} {l : List (Nat × β)} {k : Nat} {v : β}
    (h : l.lookup k = some v) : (k, v) ∈ l := by
  induction l with
  | nil => simp [List.lookup] at h
  | cons a t ih =>
    obtain ⟨a1, a2⟩ := a
    cases hk : k == a1 with
    | true =>
      simp only [List.lookup_cons, hk] at h
      cases h
      have : k = a1 := by simpa using hk
      subst this
      exact List.mem_cons_self _ _
    | false =>
      simp only [List.lookup_cons, hk] at h
      exact List.mem_cons_of_mem _ (ih h)

theorem lookup_none_forall {β : Type} {l : List (Nat × β)} {k : Nat}
    (h : l.lookup k = none) : ∀ p ∈ l, p.1 ≠ k := by
  induction l with
  | nil => simp
  | cons a t ih =>
    obtain ⟨a1, a2⟩ := a
    cases hk : k == a1 with
    | true => simp [List.lookup_cons, hk] at h
    | false =>
      simp only [List.lookup_cons, hk] at h
      intro p hp
      rcases List.mem_cons.mp hp with h1 | h1
      · subst h1
        have : ¬(k = a1) := by simpa using hk
        exact fun hc => this hc.symm
      · exact ih h p h1

theorem removeKey_of_lookup_none {l : List (Nat × StackTrace)} {k : Nat}
    (h : l.lookup k = none) : removeKey l k = l := by
  apply List.filter_eq_self.mpr
  intro p hp
  simpa using lookup_none_forall h p hp

/-! ## Bridge lemmas: the faithful operations never hit the panic -/

theorem record_new_thread_eq (st : Chrometrace) (trace : StackTrace) :
    st.record_new_thread trace = some (recordPure st trace) := by
  unfold Chrometrace.record_new_thread recordPure
  cases h : (st.thread_ids.lookup trace.thread_id).isSome with
  | true => simp [h]
  | false =>
    have hnone : st.thread_ids.lookup trace.thread_id = none := by
      cases hx : st.thread_ids.lookup trace.thread_id with
      | none => rfl
      | some v => rw [hx] at h; simp at h
    have hlk : (st.thread_ids ++
        [(trace.thread_id, st.thread_ids.length % 4294967296)]).lookup
          trace.thread_id = some (st.thread_ids.length % 4294967296) := by
      rw [lookup_append_right hnone, lookup_singleton_self]
    simp [h, Chrometrace.get_thread_id, hlk]

theorem recordPure_lookup_self (st : Chrometrace) (trace : StackTrace) :
    ((recordPure st trace).thread_ids.lookup trace.thread_id).isSome := by
  unfold recordPure
  cases h : (st.thread_ids.lookup trace.thread_id).isSome with
  | true => simp [h]
  | false =>
    have hnone : st.thread_ids.lookup trace.thread_id = none := by
      cases hx : st.thread_ids.lookup trace.thread_id with
      | none => rfl
      | some v => rw [hx] at h; simp at h
    simp [h, lookup_append_right hnone, lookup_singleton_self]

theorem mapM_option_of_eq_some {α β : Type} (f : α → Option β) (g : α → β)
    (l : List α) (h : ∀ a ∈ l, f a = some (g a)) :
    l.mapM f = some (l.map g) := by
  induction l with
  | nil => rfl
  | cons a t ih =>
    rw [List.mapM_cons, h a (List.mem_cons_self _ _),
      ih (fun b hb => h b (List.mem_cons_of_mem _ hb))]
    rfl

theorem event_eq (st : Chrometrace) (trace : StackTrace) (f : Frame)
    (ph : String) (ts : Nat)
    (h : (st.thread_ids.lookup trace.thread_id).isSome) :
    st.event trace f ph ts =
      some (mkEvent st.show_linenumbers (tidD st trace.thread_id)
        trace.pid f ph ts) := by
  unfold Chrometrace.event Chrometrace.get_thread_id tidD
  cases hx : st.thread_ids.lookup trace.thread_id with
  | none => rw [hx] at h; simp at h
  | some v => simp [hx]

theorem mapM_event_eq (st : Chrometrace) (trace : StackTrace) (ph : String)
    (now : Nat) (L : List Frame)
    (h : (st.thread_ids.lookup trace.thread_id).isSome) :
    L.mapM (fun f => st.event trace f ph now) =
      some (L.map (fun f => mkEvent st.show_linenumbers
        (tidD st trace.thread_id) trace.pid f ph now)) :=
  mapM_option_of_eq_some _ _ _ (fun f _ => event_eq st trace f ph now h)

theorem increment_eq (st : Chrometrace) (trace : StackTrace) (now : Nat) :
    st.increment trace now = some (incrementPure st trace now) := by
  have hreg : (((recordPure st trace).thread_ids).lookup trace.thread_id).isSome :=
    recordPure_lookup_self st trace
  simp only [Chrometrace.increment, incrementPure, record_new_thread_eq,
    mapM_event_eq, hreg]

theorem runO_eq (st : Chrometrace) (l : List (StackTrace × Nat)) :
    runO st l = some (runPure st l) := by
  induction l generalizing st with
  | nil => rfl
  | cons p rest ih =>
    rw [runO, increment_eq, runPure]
    simpa [runPure] using ih (incrementPure st p.1 p.2)

theorem write_eq (st : Chrometrace) (now : Nat)
    (h : ∀ p ∈ st.prev_traces, (st.thread_ids.lookup p.2.thread_id).isSome) :
    st.write now = some (writeEventsPure st now, st) := by
  unfold Chrometrace.write writeEventsPure
  rw [mapM_option_of_eq_some _
      (fun p => p.2.frames.map
        (fun f => mkEvent st.show_linenumbers (tidD st p.2.thread_id)
          p.2.pid f phE now))
      _ (fun p hp => mapM_option_of_eq_some _ _ _
          (fun f _ => event_eq st p.2 f phE now (h p hp)))]

/-! ## The divergence point: `new_idx` -/

theorem commonPrefixLen_nil_left (feq : Frame → Frame → Bool) (ys : List Frame) :
    commonPrefixLen feq [] ys = 0 := by
  cases ys <;> rfl

theorem firstMismatch_getD (st : Chrometrace) (xs ys : List Frame) :
    (firstMismatch st (xs.zip ys)).getD (min xs.length ys.length) =
      commonPrefixLen st.should_merge_frames xs ys := by
  induction xs generalizing ys with
  | nil => simp [firstMismatch, commonPrefixLen_nil_left]
  | cons a as ih =>
    cases ys with
    | nil => simp [firstMismatch, commonPrefixLen]
    | cons b bs =>
      have hz : (a :: as).zip (b :: bs) = (a, b) :: as.zip bs := rfl
      rw [hz]
      simp only [firstMismatch, commonPrefixLen]
      cases hm : st.should_merge_frames a b with
      | false => simp [hm]
      | true =>
        simp only [hm, if_true]
        cases hfm : firstMismatch st (as.zip bs) with
        | some n =>
          have h1 := ih bs
          rw [hfm] at h1
          simp only [Option.getD_some] at h1
          simp [hfm, h1]
        | none =>
          have h1 := ih bs
          rw [hfm] at h1
          simp only [Option.getD_none] at h1
          simp [hfm, ← h1, List.length_cons, Nat.succ_min_succ]

/-- C1: for every call to `increment`, the divergence point `new_idx`
equals the count of leading frames, compared from the outermost (root) end
— i.e. over the reversed innermost-first frame lists — that are pairwise
equal (under `should_merge_frames`, which compares `name`, `filename`, and
`line` only when `show_linenumbers` is set) before the first mismatch or
before either list is exhausted. -/
theorem c1_new_idx_eq_commonPrefixLen (st : Chrometrace)
    (prev_frames frames : List Frame) :
    st.new_idx prev_frames frames =
      commonPrefixLen st.should_merge_frames prev_frames.reverse frames.reverse := by
  unfold Chrometrace.new_idx
  rw [← firstMismatch_getD st prev_frames.reverse frames.reverse,
    List.length_reverse, List.length_reverse]

theorem firstMismatch_none_iff (st : Chrometrace) (l : List (Frame × Frame)) :
    firstMismatch st l = none ↔
      ∀ p ∈ l, st.should_merge_frames p.1 p.2 = true := by
  induction l with
  | nil => simp [firstMismatch]
  | cons p rest ih =>
    cases hm : st.should_merge_frames p.1 p.2 with
    | false => simp [firstMismatch, hm]
    | true => simp [firstMismatch, hm, ih]

theorem firstMismatch_some_lt (st : Chrometrace) {l : List (Frame × Frame)}
    {n : Nat} (h : firstMismatch st l = some n) : n < l.length := by
  induction l generalizing n with
  | nil => simp [firstMismatch] at h
  | cons p rest ih =>
    cases hm : st.should_merge_frames p.1 p.2 with
    | false =>
      rw [firstMismatch, hm] at h
      simp only [Bool.false_eq_true, if_false] at h
      cases h
      simp
    | true =>
      rw [firstMismatch, hm] at h
      simp only [if_true] at h
      cases hfm : firstMismatch st rest with
      | none => rw [hfm] at h; simp at h
      | some m =>
        rw [hfm] at h
        simp at h
        subst h
        have := ih hfm
        simp only [List.length_cons]
        omega

theorem firstMismatch_some_forall (st : Chrometrace) {l : List (Frame × Frame)}
    {n : Nat} (h : firstMismatch st l = some n) :
    ∀ i < n, ∀ p, l.get? i = some p → st.should_merge_frames p.1 p.2 = true := by
  induction l generalizing n with
  | nil => simp [firstMismatch] at h
  | cons q rest ih =>
    cases hm : st.should_merge_frames q.1 q.2 with
    | false =>
      rw [firstMismatch, hm] at h
      simp only [Bool.false_eq_true, if_false] at h
      cases h
      intro i hi
      omega
    | true =>
      rw [firstMismatch, hm] at h
      simp only [if_true] at h
      cases hfm : firstMismatch st rest with
      | none => rw [hfm] at h; simp at h
      | some m =>
        rw [hfm] at h
        simp at h
        subst h
        intro i hi p hp
        cases i with
        | zero =>
          simp only [List.get?_cons_zero] at hp
          cases hp
          exact hm
        | succ j =>
          simp only [List.get?_cons_succ] at hp
          exact ih hfm j (by omega) p hp

theorem get?_zip {α β : Type} (xs : List α) (ys : List β) (i : Nat) :
    (xs.zip ys).get? i =
      match xs.get? i, ys.get? i with
      | some a, some b => some (a, b)
      | _, _ => none := by
  induction xs generalizing ys i with
  | nil => simp [List.zip]
  | cons a as ih =>
    cases ys with
    | nil => cases i <;> simp [List.zip]
    | cons b bs =>
      cases i with
      | zero => simp
      | succ j => simpa using ih bs j

theorem new_idx_le_min (st : Chrometrace) (prev_frames frames : List Frame) :
    st.new_idx prev_frames frames ≤ min prev_frames.length frames.length := by
  unfold Chrometrace.new_idx
  cases hfm : firstMismatch st (prev_frames.reverse.zip frames.reverse) with
  | none => simp
  | some n =>
    have := firstMismatch_some_lt st hfm
    simp only [List.length_zip, List.length_reverse] at this
    simp only [Option.getD_some]
    omega

theorem new_idx_merge (st : Chrometrace) (prev_frames frames : List Frame)
    {i : Nat} (hi : i < st.new_idx prev_frames frames) :
    ∀ a b, prev_frames.reverse.get? i = some a →
      frames.reverse.get? i = some b →
      st.should_merge_frames a b = true := by
  intro a b ha hb
  have hz : (prev_frames.reverse.zip frames.reverse).get? i = some (a, b) := by
    rw [get?_zip, ha, hb]
  unfold Chrometrace.new_idx at hi
  cases hfm : firstMismatch st (prev_frames.reverse.zip frames.reverse) with
  | none =>
    have hall := (firstMismatch_none_iff st _).mp hfm
    exact hall (a, b) (List.get?_mem hz)
  | some n =>
    rw [hfm] at hi
    simp only [Option.getD_some] at hi
    exact firstMismatch_some_forall st hfm i hi (a, b) hz

theorem zip_reverse {α β : Type} (xs : List α) (ys : List β)
    (h : xs.length = ys.length) :
    xs.reverse.zip ys.reverse = (xs.zip ys).reverse := by
  induction xs generalizing ys with
  | nil =>
    cases ys with
    | nil => simp
    | cons b bs => simp at h
  | cons a as ih =>
    cases ys with
    | nil => simp at h
    | cons b bs =>
      have hlen : as.length = bs.length := by simpa using h
      simp only [List.reverse_cons, List.zip_cons_cons]
      rw [List.zip_append (by simp [hlen]), ih bs hlen]
      simp

theorem new_idx_of_all_mismatch (st : Chrometrace) (prev_frames frames : List Frame)
    (h : (prev_frames.reverse.zip frames.reverse).all
      (fun p => !st.should_merge_frames p.1 p.2)) :
    st.new_idx prev_frames frames = 0 := by
  unfold Chrometrace.new_idx
  cases hz : prev_frames.reverse.zip frames.reverse with
  | nil =>
    have : min prev_frames.length frames.length = 0 := by
      have := congrArg List.length hz
      simpa [List.length_zip] using this
    simp [hz, firstMismatch, this]
  | cons p rest =>
    rw [hz] at h
    have hp : st.should_merge_frames p.1 p.2 = false := by
      rw [List.all_cons] at h
      simp only [Bool.and_eq_true, Bool.not_eq_true'] at h
      exact h.1
    simp [firstMismatch, hp]

theorem new_idx_of_all_merge (st : Chrometrace) (prev_frames frames : List Frame)
    (hlen : prev_frames.length = frames.length)
    (h : (prev_frames.zip frames).all
      (fun p => st.should_merge_frames p.1 p.2)) :
    st.new_idx prev_frames frames = prev_frames.length := by
  unfold Chrometrace.new_idx
  have hall : ∀ p ∈ prev_frames.reverse.zip frames.reverse,
      st.should_merge_frames p.1 p.2 = true := by
    intro p hp
    rw [zip_reverse _ _ hlen, List.mem_reverse] at hp
    exact List.all_eq_true.mp h p hp
  rw [(firstMismatch_none_iff st _).mpr hall]
  simp [hlen]

/-! ## Characterizing one `increment` step -/

theorem firstMismatch_congr (st st' : Chrometrace)
    (h : st.show_linenumbers = st'.show_linenumbers) (l : List (Frame × Frame)) :
    firstMismatch st l = firstMismatch st' l := by
  induction l with
  | nil => rfl
  | cons p rest ih =>
    simp [firstMismatch, Chrometrace.should_merge_frames, h, ih]

theorem new_idx_congr (st st' : Chrometrace)
    (h : st.show_linenumbers = st'.show_linenumbers)
    (prev_frames frames : List Frame) :
    st.new_idx prev_frames frames = st'.new_idx prev_frames frames := by
  unfold Chrometrace.new_idx
  rw [firstMismatch_congr st st' h]

theorem recordPure_of_reg (st : Chrometrace) (trace : StackTrace)
    (h : (st.thread_ids.lookup trace.thread_id).isSome) :
    recordPure st trace = st := by
  simp [recordPure, h]

/-- One `increment` step on an already-registered thread: no metadata
event, thread ids unchanged; `End` events for the previous frames beyond
the divergence point (leaf-to-root), then `Begin` events for the new
frames beyond it (root-to-leaf). -/
theorem incrementPure_of_reg (st : Chrometrace) (trace : StackTrace) (now : Nat)
    (h : (st.thread_ids.lookup trace.thread_id).isSome)
    (prev_frames : List Frame)
    (hpf : prev_frames =
      ((st.prev_traces.lookup trace.thread_id).map StackTrace.frames).getD [])
    (n : Nat) (hn : n = st.new_idx prev_frames trace.frames) :
    incrementPure st trace now =
      { st with
        events := st.events
          ++ (prev_frames.reverse.drop n).reverse.map
            (fun f => mkEvent st.show_linenumbers (tidD st trace.thread_id)
              trace.pid f phE now)
          ++ (trace.frames.reverse.drop n).map
            (fun f => mkEvent st.show_linenumbers (tidD st trace.thread_id)
              trace.pid f phB now),
        prev_traces := removeKey st.prev_traces trace.thread_id
          ++ [(trace.thread_id, trace)] } := by
  subst hpf hn
  unfold incrementPure
  rw [recordPure_of_reg st trace h]
  have hni : Chrometrace.new_idx
      { st with prev_traces := removeKey st.prev_traces trace.thread_id }
      (((st.prev_traces.lookup trace.thread_id).map StackTrace.frames).getD [])
      trace.frames =
    st.new_idx (((st.prev_traces.lookup trace.thread_id).map
      StackTrace.frames).getD []) trace.frames :=
    new_idx_congr
      { st with prev_traces := removeKey st.prev_traces trace.thread_id }
      st rfl _ _
  simp only [hni]
  rfl

/-- One `increment` step on an unregistered thread (which, in reachable
states, also has no stored previous trace): one metadata event, then
`Begin` events for all frames root-to-leaf. -/
theorem incrementPure_of_unreg (st : Chrometrace) (trace : StackTrace) (now : Nat)
    (h : st.thread_ids.lookup trace.thread_id = none)
    (hnoprev : st.prev_traces.lookup trace.thread_id = none) :
    incrementPure st trace now =
      { st with
        events := st.events ++ [mdEvent trace (st.thread_ids.length % 4294967296)]
          ++ trace.frames.reverse.map
            (fun f => mkEvent st.show_linenumbers
              (st.thread_ids.length % 4294967296) trace.pid f phB now),
        prev_traces := st.prev_traces ++ [(trace.thread_id, trace)],
        thread_ids := st.thread_ids
          ++ [(trace.thread_id, st.thread_ids.length % 4294967296)] } := by
  have hrec : recordPure st trace =
      { st with
        thread_ids := st.thread_ids
          ++ [(trace.thread_id, st.thread_ids.length % 4294967296)],
        events := st.events ++ [mdEvent trace (st.thread_ids.length % 4294967296)] } := by
    simp [recordPure, h]
  have htid : (st.thread_ids
      ++ [(trace.thread_id, st.thread_ids.length % 4294967296)]).lookup
        trace.thread_id = some (st.thread_ids.length % 4294967296) := by
    rw [lookup_append_right h, lookup_singleton_self]
  unfold incrementPure
  rw [hrec]
  simp only [hnoprev, Option.map_none', Option.getD_none, removeKey_of_lookup_none hnoprev,
    List.reverse_nil, List.drop_nil, List.map_nil, tidD, htid, Option.getD_some]
  have hn0 : Chrometrace.new_idx
      { st with
        thread_ids := st.thread_ids
          ++ [(trace.thread_id, st.thread_ids.length % 4294967296)],
        events := st.events ++ [mdEvent trace (st.thread_ids.length % 4294967296)],
        prev_traces := st.prev_traces }
      [] trace.frames = 0 := by
    unfold Chrometrace.new_idx
    simp [firstMismatch]
  rw [hn0]
  simp

theorem removeKey_lookup_self_none (l : List (Nat × StackTrace)) (k : Nat) :
    (removeKey l k).lookup k = none := by
  induction l with
  | nil => rfl
  | cons p rest ih =>
    obtain ⟨p1, p2⟩ := p
    by_cases hp : p1 = k
    · subst hp
      simpa [removeKey] using ih
    · have hb : (p1 != k) = true := by simpa using hp
      have hk : (k == p1) = false := by
        simp only [beq_eq_false_iff_ne]
        exact fun hc => hp hc.symm
      simp only [removeKey, List.filter_cons, hb, if_true]
      rw [List.lookup_cons]
      simpa [hk, removeKey] using ih

theorem new_idx_nil_left (st : Chrometrace) (frames : List Frame) :
    st.new_idx [] frames = 0 := by
  unfold Chrometrace.new_idx
  simp [firstMismatch]

theorem recordPure_of_unreg (st : Chrometrace) (trace : StackTrace)
    (h : st.thread_ids.lookup trace.thread_id = none) :
    recordPure st trace =
      { st with
        thread_ids := st.thread_ids
          ++ [(trace.thread_id, st.thread_ids.length % 4294967296)],
        events := st.events
          ++ [mdEvent trace (st.thread_ids.length % 4294967296)] } := by
  simp [recordPure, h]

theorem tidD_recordPure_unreg (st : Chrometrace) (trace : StackTrace)
    (h : st.thread_ids.lookup trace.thread_id = none) :
    tidD (recordPure st trace) trace.thread_id =
      st.thread_ids.length % 4294967296 := by
  rw [recordPure_of_unreg st trace h]
  simp only [tidD]
  rw [lookup_append_right h, lookup_singleton_self]
  rfl

/-- C3: if the incoming sample's frames are equal, under the configured
frame equality `should_merge_frames`, to the stored previous sample's
frames for that thread (which is registered, as stored threads always
are), the `increment` call appends zero events to the event log. -/
theorem c3_identical_sample_appends_no_events (st : Chrometrace)
    (trace pt : StackTrace) (now : Nat) (st' : Chrometrace)
    (hprev : st.prev_traces.lookup trace.thread_id = some pt)
    (hreg : (st.thread_ids.lookup trace.thread_id).isSome)
    (hlen : pt.frames.length = trace.frames.length)
    (heq : (pt.frames.zip trace.frames).all
      (fun p => st.should_merge_frames p.1 p.2) = true)
    (hinc : st.increment trace now = some st') :
    st'.events = st.events := by
  rw [increment_eq] at hinc
  have hst' : st' = incrementPure st trace now := by
    cases hinc
    rfl
  subst hst'
  rw [incrementPure_of_reg st trace now hreg pt.frames (by simp [hprev])
    pt.frames.length (new_idx_of_all_merge st _ _ hlen heq).symm]
  have hd1 : pt.frames.reverse.drop pt.frames.length = [] := by
    apply List.drop_eq_nil_of_le
    simp
  have hd2 : trace.frames.reverse.drop pt.frames.length = [] := by
    apply List.drop_eq_nil_of_le
    simp [hlen]
  simp [hd1, hd2]

/-- C2: if the previous and current stacks share no equal frame at any
common root-side position, `increment` appends exactly
`len(previous.frames) + len(current.frames)` events: first `End` events
for all previous frames ordered leaf-to-root (the stored innermost-first
order), then `Begin` events for all current frames ordered root-to-leaf
(the reversed innermost-first order). -/
theorem c2_disjoint_stacks (st : Chrometrace) (trace pt : StackTrace)
    (now : Nat) (st' : Chrometrace)
    (hprev : st.prev_traces.lookup trace.thread_id = some pt)
    (hreg : (st.thread_ids.lookup trace.thread_id).isSome)
    (hdisj : (pt.frames.reverse.zip trace.frames.reverse).all
      (fun p => !st.should_merge_frames p.1 p.2) = true)
    (hinc : st.increment trace now = some st') :
    st'.events = st.events
      ++ pt.frames.map (fun f => mkEvent st.show_linenumbers
          (tidD st trace.thread_id) trace.pid f phE now)
      ++ trace.frames.reverse.map (fun f => mkEvent st.show_linenumbers
          (tidD st trace.thread_id) trace.pid f phB now) ∧
    st'.events.length = st.events.length
      + (pt.frames.length + trace.frames.length) := by
  rw [increment_eq] at hinc
  have hst' : st' = incrementPure st trace now := by
    cases hinc
    rfl
  subst hst'
  rw [incrementPure_of_reg st trace now hreg pt.frames (by simp [hprev])
    0 (new_idx_of_all_mismatch st _ _ hdisj).symm]
  constructor
  · simp
  · simp [Nat.add_assoc]

/-- C5 (amended): on a sample with an empty frame list, `End` events are
emitted for all of the thread's previous frames (leaf-to-root), no `Begin`
event is emitted, and afterward the thread's entry in the previous-sample
map is the new sample itself, whose frame list is empty — the entry is
*not* removed (`increment` unconditionally re-inserts the sample). -/
theorem c5_empty_sample (st : Chrometrace) (trace pt : StackTrace)
    (now : Nat) (st' : Chrometrace)
    (hprev : st.prev_traces.lookup trace.thread_id = some pt)
    (hreg : (st.thread_ids.lookup trace.thread_id).isSome)
    (hempty : trace.frames = [])
    (hinc : st.increment trace now = some st') :
    st'.events = st.events
      ++ pt.frames.map (fun f => mkEvent st.show_linenumbers
          (tidD st trace.thread_id) trace.pid f phE now) ∧
    (∀ e ∈ st'.events, e ∉ st.events → e.ph = phE) ∧
    st'.prev_traces.lookup trace.thread_id = some trace := by
  rw [increment_eq] at hinc
  have hst' : st' = incrementPure st trace now := by
    cases hinc
    rfl
  subst hst'
  have hn0 : st.new_idx pt.frames trace.frames = 0 := by
    unfold Chrometrace.new_idx
    rw [hempty]
    simp [List.zip_nil_right, firstMismatch]
  rw [incrementPure_of_reg st trace now hreg pt.frames (by simp [hprev])
    0 hn0.symm]
  refine ⟨by simp [hempty], ?_, ?_⟩
  · intro e he hne
    simp only [hempty, List.reverse_nil, List.drop_nil, List.map_nil,
      List.append_nil, List.drop_zero, List.reverse_reverse] at he
    rcases List.mem_append.mp he with h1 | h1
    · exact absurd h1 hne
    · rcases List.mem_map.mp h1 with ⟨f, _, hf⟩
      rw [← hf]
      rfl
  · rw [lookup_append_right (removeKey_lookup_self_none _ _),
      lookup_singleton_self]

/-- C9: `increment` has no error path: for every engine state, sample and
clock reading it returns success (the modelled `none` marking the
`get_thread_id` panic never occurs), the resulting state being the pure
state transition `incrementPure`; and an absent previous stack is treated
exactly as an empty stack: every frame of the sample begins, nothing
ends. -/
theorem c9_no_error_path (st : Chrometrace) (trace : StackTrace) (now : Nat) :
    st.increment trace now = some (incrementPure st trace now) ∧
    (st.prev_traces.lookup trace.thread_id = none →
      (incrementPure st trace now).events = (recordPure st trace).events
        ++ trace.frames.reverse.map (fun f => mkEvent st.show_linenumbers
            (tidD (recordPure st trace) trace.thread_id) trace.pid f phB now)) := by
  refine ⟨increment_eq st trace now, fun hnoprev => ?_⟩
  cases hreg : st.thread_ids.lookup trace.thread_id with
  | some v =>
    have hreg' : (st.thread_ids.lookup trace.thread_id).isSome := by simp [hreg]
    rw [incrementPure_of_reg st trace now hreg' []
        (by simp [hnoprev]) 0 (new_idx_nil_left st trace.frames).symm,
      recordPure_of_reg st trace hreg']
    simp
  | none =>
    rw [incrementPure_of_unreg st trace now hreg hnoprev,
      tidD_recordPure_unreg st trace hreg, recordPure_of_unreg st trace hreg]

theorem c3_witness : (incrementPure w3st w3pt 9).events = w3st.events :=
  c3_identical_sample_appends_no_events w3st w3pt w3pt 9
    (incrementPure w3st w3pt 9) rfl rfl rfl (by decide)
    (increment_eq w3st w3pt 9)

theorem c2_witness :
    (incrementPure w3st w2tr 9).events = w3st.events
      ++ w3pt.frames.map (fun f => mkEvent w3st.show_linenumbers
          (tidD w3st 7) w2tr.pid f phE 9)
      ++ w2tr.frames.reverse.map (fun f => mkEvent w3st.show_linenumbers
          (tidD w3st 7) w2tr.pid f phB 9) ∧
    (incrementPure w3st w2tr 9).events.length = w3st.events.length
      + (w3pt.frames.length + w2tr.frames.length) :=
  c2_disjoint_stacks w3st w2tr w3pt 9 (incrementPure w3st w2tr 9)
    rfl rfl (by decide) (increment_eq w3st w2tr 9)

theorem c5_witness :
    (incrementPure w3st w5tr 9).events = w3st.events
      ++ w3pt.frames.map (fun f => mkEvent w3st.show_linenumbers
          (tidD w3st 7) w5tr.pid f phE 9) ∧
    (∀ e ∈ (incrementPure w3st w5tr 9).events, e ∉ w3st.events → e.ph = phE) ∧
    (incrementPure w3st w5tr 9).prev_traces.lookup 7 = some w5tr :=
  c5_empty_sample w3st w5tr w3pt 9 (incrementPure w3st w5tr 9)
    rfl rfl rfl (increment_eq w3st w5tr 9)

/-- C5 counterexample: the claim states that after an `increment` whose
sample has an empty frame list, "the thread has no entry in the last
(previous-sample) map".  In fact line 138 of chrometrace.rs re-inserts the
sample unconditionally, so the thread still has an entry (holding an empty
frame list): here thread 7's entry is present after its empty sample. -/
theorem c5_counterexample :
    ((c5state.prev_traces.lookup 7).isSome = true) ∧
    (c5state.prev_traces.lookup 7 = some w5tr) := by
  constructor <;> decide

/-- Generic inversion for `Option`-monad `mapM`: a successful run equals
the pointwise `map` of any function agreeing on the successes. -/
theorem mapM_option_some_ext {α β : Type} (f : α → Option β) (g : α → β)
    (l : List α) (ys : List β) (h : l.mapM f = some ys)
    (hfg : ∀ a ∈ l, ∀ b, f a = some b → b = g a) : ys = l.map g := by
  induction l generalizing ys with
  | nil =>
    rw [List.mapM_nil] at h
    cases h
    rfl
  | cons a t ih =>
    rw [List.mapM_cons] at h
    cases hfa : f a with
    | none => rw [hfa] at h; simp at h
    | some b =>
      rw [hfa] at h
      cases hft : t.mapM f with
      | none => rw [hft] at h; simp at h
      | some bs =>
        rw [hft] at h
        simp only [Option.bind_eq_bind, Option.bind_some] at h
        cases h
        rw [List.map_cons, hfg a (List.mem_cons_self _ _) b hfa,
          ih bs hft (fun x hx => hfg x (List.mem_cons_of_mem _ hx))]

theorem event_some_ext (st : Chrometrace) (trace : StackTrace) (f : Frame)
    (ph : String) (ts : Nat) (e : Event)
    (h : st.event trace f ph ts = some e) :
    e = mkEvent st.show_linenumbers (tidD st trace.thread_id) trace.pid f ph ts := by
  unfold Chrometrace.event Chrometrace.get_thread_id at h
  cases hx : st.thread_ids.lookup trace.thread_id with
  | none => rw [hx] at h; simp at h
  | some v =>
    rw [hx] at h
    simp only [Option.map_some'] at h
    cases h
    simp [tidD, hx]

/-- C8: `write` never mutates engine state (the source takes `&self`): the
returned state is the input state, so the event log, the previous-sample
map and the thread-id map are unchanged, and the output is the stored log
followed by synthesized closing `End` events, one per frame still stored
in `prev_traces`, all at the current elapsed timestamp `now` — so repeated
invocations each re-synthesize fresh closing events at their own clock
reading. -/
theorem c8_write_no_mutation (st : Chrometrace) (now : Nat)
    (res : List Event × Chrometrace) (h : st.write now = some res) :
    res.2 = st ∧
    res.1 = st.events ++ (st.prev_traces.map (fun p => p.2.frames.map
      (fun f => mkEvent st.show_linenumbers (tidD st p.2.thread_id)
        p.2.pid f phE now))).flatten ∧
    (∀ e ∈ (st.prev_traces.map (fun p => p.2.frames.map
      (fun f => mkEvent st.show_linenumbers (tidD st p.2.thread_id)
        p.2.pid f phE now))).flatten, e.ph = phE ∧ e.ts = now) := by
  unfold Chrometrace.write at h
  cases hm : st.prev_traces.mapM
      (fun p => p.2.frames.mapM (fun f => st.event p.2 f phE now)) with
  | none => rw [hm] at h; simp at h
  | some closing =>
    rw [hm] at h
    cases h
    have hcl : closing = st.prev_traces.map (fun p => p.2.frames.map
        (fun f => mkEvent st.show_linenumbers (tidD st p.2.thread_id)
          p.2.pid f phE now)) := by
      apply mapM_option_some_ext _ _ _ _ hm
      intro p _ b hb
      exact mapM_option_some_ext _ _ _ _ hb
        (fun fr _ e he => event_some_ext st p.2 fr phE now e he)
    refine ⟨rfl, by rw [hcl], ?_⟩
    intro e he
    rcases List.mem_flatten.mp he with ⟨sub, hsub, hesub⟩
    rcases List.mem_map.mp hsub with ⟨p, _, hp⟩
    rw [← hp] at hesub
    rcases List.mem_map.mp hesub with ⟨fr, _, hfr⟩
    rw [← hfr]
    exact ⟨rfl, rfl⟩

theorem c8_witness :
    (writeEventsPure w3st 5, w3st).2 = w3st ∧
    (writeEventsPure w3st 5, w3st).1 = w3st.events
      ++ (w3st.prev_traces.map (fun p => p.2.frames.map
        (fun f => mkEvent w3st.show_linenumbers (tidD w3st p.2.thread_id)
          p.2.pid f phE 5))).flatten ∧
    (∀ e ∈ (w3st.prev_traces.map (fun p => p.2.frames.map
      (fun f => mkEvent w3st.show_linenumbers (tidD w3st p.2.thread_id)
        p.2.pid f phE 5))).flatten, e.ph = phE ∧ e.ts = 5) :=
  c8_write_no_mutation w3st 5 (writeEventsPure w3st 5, w3st)
    (write_eq w3st 5 (by decide))

/-! ## C6: the thread-id registry -/

theorem incrementPure_thread_ids (st : Chrometrace) (trace : StackTrace)
    (now : Nat) :
    (incrementPure st trace now).thread_ids = (recordPure st trace).thread_ids :=
  rfl

theorem recordPure_lookup_stable (st : Chrometrace) (trace : StackTrace)
    (k : Nat) (v : Nat) (h : st.thread_ids.lookup k = some v) :
    (recordPure st trace).thread_ids.lookup k = some v := by
  unfold recordPure
  cases hr : (st.thread_ids.lookup trace.thread_id).isSome with
  | true => simpa [hr] using h
  | false =>
    simp only [hr, Bool.false_eq_true, if_false]
    rw [lookup_append_left (by simp [h])]
    exact h

theorem runPure_snoc (st : Chrometrace) (l : List (StackTrace × Nat))
    (p : StackTrace × Nat) :
    runPure st (l ++ [p]) = incrementPure (runPure st l) p.1 p.2 := by
  simp [runPure, List.foldl_append]

theorem lookup_singleton_ne {β : Type} {k a : Nat} (v : β) (h : k ≠ a) :
    ([(a, v)] : List (Nat × β)).lookup k = none := by
  have hb : (k == a) = false := by simpa using h
  simp [List.lookup_cons, hb]

theorem lookup_map_range (f : Nat → Nat) (n k : Nat) :
    ((List.range n).map (fun i => (i, f i))).lookup k
      = if k < n then some (f k) else none := by
  induction n with
  | zero => simp
  | succ m ih =>
    rw [List.range_succ, List.map_append]
    by_cases hk : k < m
    · have hsome : (((List.range m).map (fun i => (i, f i))).lookup k).isSome = true := by
        rw [ih]
        simp [hk]
      rw [lookup_append_left hsome, ih]
      simp [hk, Nat.lt_succ_of_lt hk]
    · have hnone : ((List.range m).map (fun i => (i, f i))).lookup k = none := by
        rw [ih]
        simp [hk]
      rw [lookup_append_right hnone]
      simp only [List.map_cons, List.map_nil]
      by_cases he : k = m
      · subst he
        rw [lookup_singleton_self]
        simp
      · rw [lookup_singleton_ne _ he]
        have hlt : ¬(k < m + 1) := by omega
        simp [hlt]

theorem threadRun_thread_ids (n : Nat) :
    (threadRun n).thread_ids
      = (List.range n).map (fun i => (i, i % 4294967296)) := by
  induction n with
  | zero => rfl
  | succ m ih =>
    have hstep : threadRun (m + 1) = incrementPure (threadRun m) (natSample m) 0 := by
      unfold threadRun
      rw [List.range_succ, List.map_append]
      exact runPure_snoc _ _ _
    rw [hstep, incrementPure_thread_ids]
    have hun : (threadRun m).thread_ids.lookup (natSample m).thread_id = none := by
      rw [ih]
      have : (natSample m).thread_id = m := rfl
      rw [this, lookup_map_range]
      simp
    rw [recordPure_of_unreg _ _ hun, ih]
    rw [List.range_succ, List.map_append]
    simp [natSample]

/-- C6 (amended): thread-id remapping is dense modulo 2^32, 0-based and
first-seen-ordered — the n-th distinct native thread id observed is
assigned dense id (n-1) % 2^32 (equal to n-1 whenever fewer than 2^32
threads are observed, but wrapping beyond that because the source casts
`thread_ids.len() as u32`); an assigned mapping never changes for the rest
of the session; on first observation exactly one metadata event is
appended, with phase "M", name "thread_name", timestamp 0, args.name
"<thread_id>: <thread_name or empty>", an empty-string args.filename and
an absent (null-serialized) args.line; re-observing a known thread changes
nothing and emits no event. -/
theorem c6_thread_registry (st : Chrometrace) (trace : StackTrace) :
    (st.thread_ids.lookup trace.thread_id = none →
      (recordPure st trace).thread_ids
        = st.thread_ids
          ++ [(trace.thread_id, st.thread_ids.length % 4294967296)] ∧
      (recordPure st trace).events
        = st.events ++ [mdEvent trace (st.thread_ids.length % 4294967296)]) ∧
    ((st.thread_ids.lookup trace.thread_id).isSome = true →
      recordPure st trace = st) ∧
    (∀ now, (incrementPure st trace now).thread_ids
      = (recordPure st trace).thread_ids) ∧
    (∀ k v now, st.thread_ids.lookup k = some v →
      (incrementPure st trace now).thread_ids.lookup k = some v) ∧
    ((mdEvent trace (st.thread_ids.length % 4294967296)).ph = phM ∧
     (mdEvent trace (st.thread_ids.length % 4294967296)).name = threadNameLabel ∧
     (mdEvent trace (st.thread_ids.length % 4294967296)).ts = 0 ∧
     (mdEvent trace (st.thread_ids.length % 4294967296)).args.name
       = some (toString trace.thread_id ++ ": " ++ trace.thread_name.getD emptyStr) ∧
     (mdEvent trace (st.thread_ids.length % 4294967296)).args.filename = emptyStr ∧
     (mdEvent trace (st.thread_ids.length % 4294967296)).args.line = none) := by
  refine ⟨fun hun => ?_, fun hreg => recordPure_of_reg st trace hreg,
    fun now => incrementPure_thread_ids st trace now,
    fun k v now h => ?_, rfl, rfl, rfl, rfl, rfl, rfl⟩
  · rw [recordPure_of_unreg st trace hun]
    exact ⟨rfl, rfl⟩
  · rw [incrementPure_thread_ids]
    exact recordPure_lookup_stable st trace k v h

/-- C6 counterexample: the claim says the n-th distinct native thread id
observed is assigned dense id n-1, and that the metadata event has no
filename/line.  In fact `thread_ids.len() as u32` wraps: after 2^32
distinct threads the next one (native id 2^32 here, observed as the
(2^32+1)-th) is assigned dense id 0, not 2^32; and the metadata event's
serialized args do contain `filename` (empty string) and `line` (null)
fields. -/
theorem c6_counterexample :
    (threadRun 4294967297).thread_ids.lookup 4294967296 = some 0 ∧
    (0 : Nat) ≠ 4294967296 ∧
    (argsToJson (mdEvent w9tr 0).args).map Prod.fst
      = ["filename", "line", "name"] := by
  refine ⟨?_, by decide, by decide⟩
  rw [threadRun_thread_ids, lookup_map_range]
  have h1 : (4294967296 : Nat) < 4294967297 := by norm_num
  rw [if_pos h1, Nat.mod_self]

theorem c6_witness :
    ((recordPure (Chrometrace.new true) w9tr).thread_ids
      = (Chrometrace.new true).thread_ids
        ++ [(w9tr.thread_id, (Chrometrace.new true).thread_ids.length % 4294967296)]) ∧
    (recordPure w3st w3pt = w3st) ∧
    ((incrementPure w3st w3pt 4).thread_ids.lookup 7 = some 0) :=
  ⟨((c6_thread_registry (Chrometrace.new true) w9tr).1 rfl).1,
   (c6_thread_registry w3st w3pt).2.1 rfl,
   (c6_thread_registry w3st w3pt).2.2.2.1 7 0 4 rfl⟩

/-! ## C7: the `show_linenumbers` toggle -/

/-- C7 counterexample: the claim says that with `show_linenumbers = false`
no serialized event contains a `line` field.  In fact `Args.line` has no
`skip_serializing_if` attribute, so every serialized event — here the
first Begin event of a `show_linenumbers = false` session — carries an
explicit `"line": null` field. -/
theorem c7_counterexample :
    c7state.show_linenumbers = false ∧
    (c7state.events.get? 1).map (fun e => (argsToJson e.args).map Prod.fst)
      = some ["filename", "line"] ∧
    (c7state.events.get? 1).map (fun e => e.ph) = some phB := by
  refine ⟨by decide, by decide, by decide⟩

/-- C7 (amended): with `show_linenumbers = false`, every emitted
interval event serializes its args as exactly a `filename` field and a
null `line` field (no numeric line, `name` omitted), and two frames
identical except for `line` are merged (no Begin/End churn); with
`show_linenumbers = true`, emitted events carry `args.line` (the frame
line as a `u32`), frames whose lines differ are never merged, and a
sample replacing a single stored frame by one differing only in line
produces exactly an End/Begin transition pair. -/
theorem c7_line_toggle (st : Chrometrace) :
    (st.show_linenumbers = false →
      (∀ tid pid f ph ts,
        argsToJson (mkEvent st.show_linenumbers tid pid f ph ts).args
          = [("filename", JValue.jstr f.filename), ("line", JValue.jnull)]) ∧
      (∀ a b : Frame, a.name = b.name → a.filename = b.filename →
        st.should_merge_frames a b = true)) ∧
    (st.show_linenumbers = true →
      (∀ tid pid f ph ts,
        (mkEvent st.show_linenumbers tid pid f ph ts).args.line
          = some (lineU32 f.line)) ∧
      (∀ a b : Frame, a.line ≠ b.line →
        st.should_merge_frames a b = false)) ∧
    (∀ trace pt a b now st',
      st.show_linenumbers = true →
      st.prev_traces.lookup trace.thread_id = some pt →
      (st.thread_ids.lookup trace.thread_id).isSome = true →
      pt.frames = [a] → trace.frames = [b] →
      a.line ≠ b.line →
      st.increment trace now = some st' →
      st'.events = st.events
        ++ [mkEvent st.show_linenumbers (tidD st trace.thread_id)
              trace.pid a phE now]
        ++ [mkEvent st.show_linenumbers (tidD st trace.thread_id)
              trace.pid b phB now]) := by
  refine ⟨fun hoff => ⟨fun tid pid f ph ts => ?_, fun a b h1 h2 => ?_⟩,
    fun hon => ⟨fun tid pid f ph ts => ?_, fun a b hne => ?_⟩,
    fun trace pt a b now st' hon hprev hreg hpt htr hne hinc => ?_⟩
  · simp [mkEvent, argsToJson, hoff]
  · simp [Chrometrace.should_merge_frames, hoff, h1, h2]
  · simp [mkEvent, hon]
  · have hb : (a.line == b.line) = false := by simpa using hne
    simp [Chrometrace.should_merge_frames, hon, hb]
  · have hmf : st.should_merge_frames a b = false := by
      have hb : (a.line == b.line) = false := by simpa using hne
      simp [Chrometrace.should_merge_frames, hon, hb]
    have hdisj : (pt.frames.reverse.zip trace.frames.reverse).all
        (fun p => !st.should_merge_frames p.1 p.2) = true := by
      rw [hpt, htr]
      simp [hmf]
    have h2 := c2_disjoint_stacks st trace pt now st' hprev hreg hdisj hinc
    rw [h2.1, hpt, htr]
    simp

theorem c7_witness :
    (argsToJson (mkEvent (Chrometrace.new false).show_linenumbers 0 1
        wFrameF phB 2).args
      = [("filename", JValue.jstr wFrameF.filename), ("line", JValue.jnull)]) ∧
    ((Chrometrace.new false).should_merge_frames wFrameF wFrameF2 = true) ∧
    ((mkEvent w3st.show_linenumbers 0 1 wFrameF phB 2).args.line
      = some (lineU32 wFrameF.line)) ∧
    (w3st.should_merge_frames wFrameF wFrameF2 = false) ∧
    ((incrementPure w3st c7tr 9).events = w3st.events
      ++ [mkEvent w3st.show_linenumbers (tidD w3st 7) c7tr.pid wFrameF phE 9]
      ++ [mkEvent w3st.show_linenumbers (tidD w3st 7) c7tr.pid wFrameF2 phB 9]) :=
  ⟨((c7_line_toggle (Chrometrace.new false)).1 rfl).1 0 1 wFrameF phB 2,
   ((c7_line_toggle (Chrometrace.new false)).1 rfl).2 wFrameF wFrameF2 rfl rfl,
   ((c7_line_toggle w3st).2.1 rfl).1 0 1 wFrameF phB 2,
   ((c7_line_toggle w3st).2.1 rfl).2 wFrameF wFrameF2 (by decide),
   (c7_line_toggle w3st).2.2 c7tr w3pt wFrameF wFrameF2 9
     (incrementPure w3st c7tr 9) rfl rfl rfl rfl rfl (by decide)
     (increment_eq w3st c7tr 9)⟩

/-! ## C10: the registration invariant -/

/-- C10: every key of the previous-sample map is also a key of the
dense-id map (together with the bookkeeping fact that a stored sample's
`thread_id` equals its key); this holds of a new engine and is preserved
by `increment`; registration (`record_new_thread`) happens before any
event construction, so the panicking `HashMap` index modelled by the
`Option` in `get_thread_id` never fires: `increment` always succeeds, and
`write` succeeds from every well-formed state. -/
theorem c10_get_thread_id_safe :
    (∀ b : Bool, WellFormed (Chrometrace.new b)) ∧
    (∀ (st : Chrometrace) (trace : StackTrace) (now : Nat) (st' : Chrometrace),
      WellFormed st → st.increment trace now = some st' → WellFormed st') ∧
    (∀ (st : Chrometrace) (trace : StackTrace) (now : Nat),
      (st.increment trace now).isSome = true) ∧
    (∀ (st : Chrometrace) (now : Nat), WellFormed st →
      (st.write now).isSome = true) := by
  refine ⟨fun b p hp => by simp [Chrometrace.new] at hp, ?_, ?_, ?_⟩
  · intro st trace now st' hwf hinc
    rw [increment_eq] at hinc
    have hst' : st' = incrementPure st trace now := by
      cases hinc
      rfl
    subst hst'
    cases hreg : st.thread_ids.lookup trace.thread_id with
    | some v =>
      have hreg' : (st.thread_ids.lookup trace.thread_id).isSome = true := by
        simp [hreg]
      rw [incrementPure_of_reg st trace now hreg' _ rfl _ rfl]
      intro p hp
      rcases List.mem_append.mp hp with h1 | h1
      · have hmem : p ∈ st.prev_traces := List.mem_of_mem_filter h1
        exact hwf p hmem
      · have hp' : p = (trace.thread_id, trace) := by simpa using h1
        subst hp'
        exact ⟨hreg', rfl⟩
    | none =>
      have hnoprev : st.prev_traces.lookup trace.thread_id = none := by
        cases hx : st.prev_traces.lookup trace.thread_id with
        | none => rfl
        | some pt =>
          have hmem := lookup_mem hx
          have := (hwf _ hmem).1
          rw [hreg] at this
          simp at this
      rw [incrementPure_of_unreg st trace now hreg hnoprev]
      intro p hp
      rcases List.mem_append.mp hp with h1 | h1
      · obtain ⟨hs, hk⟩ := hwf p h1
        refine ⟨?_, hk⟩
        rw [lookup_append_left hs]
        exact hs
      · have hp' : p = (trace.thread_id, trace) := by simpa using h1
        subst hp'
        refine ⟨?_, rfl⟩
        rw [lookup_append_right hreg, lookup_singleton_self]
        rfl
  · intro st trace now
    rw [increment_eq]
    rfl
  · intro st now hwf
    rw [write_eq st now (fun p hp => by
      obtain ⟨hs, hk⟩ := hwf p hp
      rw [hk]
      exact hs)]
    rfl

theorem c10_witness :
    WellFormed (Chrometrace.new true) ∧
    WellFormed (incrementPure w3st w2tr 9) ∧
    ((w3st.increment w2tr 9).isSome = true) ∧
    ((w3st.write 5).isSome = true) :=
  ⟨c10_get_thread_id_safe.1 true,
   c10_get_thread_id_safe.2.1 w3st w2tr 9 (incrementPure w3st w2tr 9)
     (by unfold WellFormed; decide) (increment_eq w3st w2tr 9),
   c10_get_thread_id_safe.2.2.1 w3st w2tr 9,
   c10_get_thread_id_safe.2.2.2 w3st 5 (by unfold WellFormed; decide)⟩

/-! ## C4: every Begin is matched by a later End -/

theorem evKey_mkEvent (sl : Bool) (tid pid : Nat) (f : Frame) (ph : String)
    (ts : Nat) :
    evKey (mkEvent sl tid pid f ph ts) = ⟨pid, tid, f.name, f.filename⟩ := rfl

theorem cntE_map_event (sl : Bool) (tid pid : Nat) (frames : List Frame)
    (ts : Nat) (k : EKey) :
    cntE (frames.map (fun f => mkEvent sl tid pid f phE ts)) k
      = frames.countP (fun f =>
          decide ((⟨pid, tid, f.name, f.filename⟩ : EKey) = k)) := by
  unfold cntE
  rw [List.countP_map]
  apply List.countP_congr
  intro f _
  simp [Function.comp, mkEvent, evKey]

theorem cntB_map_event_end (sl : Bool) (tid pid : Nat) (frames : List Frame)
    (ts : Nat) (k : EKey) :
    cntB (frames.map (fun f => mkEvent sl tid pid f phE ts)) k = 0 := by
  unfold cntB
  rw [List.countP_map, List.countP_eq_zero]
  intro f _
  have : (phE == phB) = false := by decide
  simp [Function.comp, mkEvent, this]

theorem cntB_map_event_begin (sl : Bool) (tid pid : Nat) (frames : List Frame)
    (ts : Nat) (k : EKey) :
    cntB (frames.map (fun f => mkEvent sl tid pid f phB ts)) k
      = frames.countP (fun f =>
          decide ((⟨pid, tid, f.name, f.filename⟩ : EKey) = k)) := by
  unfold cntB
  rw [List.countP_map]
  apply List.countP_congr
  intro f _
  simp [Function.comp, mkEvent, evKey]

theorem cntE_map_event_begin (sl : Bool) (tid pid : Nat) (frames : List Frame)
    (ts : Nat) (k : EKey) :
    cntE (frames.map (fun f => mkEvent sl tid pid f phB ts)) k = 0 := by
  unfold cntE
  rw [List.countP_map, List.countP_eq_zero]
  intro f _
  have : (phB == phE) = false := by decide
  simp [Function.comp, mkEvent, this]

theorem cntB_md (trace : StackTrace) (tid : Nat) (k : EKey) :
    cntB [mdEvent trace tid] k = 0 := by
  unfold cntB
  have : (phM == phB) = false := by decide
  simp [List.countP_cons, mdEvent, this]

theorem cntE_md (trace : StackTrace) (tid : Nat) (k : EKey) :
    cntE [mdEvent trace tid] k = 0 := by
  unfold cntE
  have : (phM == phE) = false := by decide
  simp [List.countP_cons, mdEvent, this]

theorem isBE_md (trace : StackTrace) (tid : Nat) :
    isBE (mdEvent trace tid) = false := by
  have h1 : (phM == phB) = false := by decide
  have h2 : (phM == phE) = false := by decide
  simp [isBE, mdEvent, h1, h2]

theorem cntB_append (es fs : List Event) (k : EKey) :
    cntB (es ++ fs) k = cntB es k + cntB fs k :=
  List.countP_append _ _ _

theorem cntE_append (es fs : List Event) (k : EKey) :
    cntE (es ++ fs) k = cntE es k + cntE fs k :=
  List.countP_append _ _ _

theorem cntE_take_le (es : List Event) (n : Nat) (k : EKey) :
    cntE (es.take n) k ≤ cntE es k :=
  (List.take_sublist n es).countP_le _

theorem cntB_take_le (es : List Event) (n : Nat) (k : EKey) :
    cntB (es.take n) k ≤ cntB es k :=
  (List.take_sublist n es).countP_le _

/-- Dominance (`no prefix closes more than it opened`) survives appending
a chunk whose `End` events per key stay within the open count. -/
theorem dom_append (es chunk : List Event) (oc : EKey → Nat)
    (hdom : ∀ n k, cntE (es.take n) k ≤ cntB (es.take n) k)
    (hbal : ∀ k, cntB es k = cntE es k + oc k)
    (hchunkE : ∀ k, cntE chunk k ≤ oc k) :
    ∀ n k, cntE ((es ++ chunk).take n) k ≤ cntB ((es ++ chunk).take n) k := by
  intro n k
  rw [List.take_append_eq_append_take, cntE_append, cntB_append]
  by_cases hn : n ≤ es.length
  · have h0 : n - es.length = 0 := by omega
    rw [h0]
    simp only [List.take_zero]
    have hz : cntE ([] : List Event) k = 0 := rfl
    have hz' : cntB ([] : List Event) k = 0 := rfl
    rw [hz, hz']
    simpa using hdom n k
  · have hfull : es.take n = es := List.take_of_length_le (by omega)
    rw [hfull]
    have h1 : cntE (chunk.take (n - es.length)) k ≤ oc k :=
      le_trans (cntE_take_le _ _ _) (hchunkE k)
    have h2 := hbal k
    omega

/-- Per-key balance after appending a chunk, given the chunk's net effect
on the open count. -/
theorem bal_append (es chunk : List Event) (oc noc : EKey → Nat)
    (hbal : ∀ k, cntB es k = cntE es k + oc k)
    (hkey : ∀ k, cntB chunk k + oc k = cntE chunk k + noc k) :
    ∀ k, cntB (es ++ chunk) k = cntE (es ++ chunk) k + noc k := by
  intro k
  rw [cntB_append, cntE_append]
  have h1 := hbal k
  have h2 := hkey k
  omega

/-- Timestamp monotonicity of interval events survives appending a chunk
whose interval events are all stamped `now ≥` every previous stamp. -/
theorem mono_append (es chunk : List Event) (T now : Nat)
    (hbound : ∀ e ∈ es, isBE e = true → e.ts ≤ T) (hTn : T ≤ now)
    (hchunk : ∀ e ∈ chunk, isBE e = true → e.ts = now)
    (hmono : ∀ i j ei ej, i ≤ j → es.get? i = some ei →
      es.get? j = some ej → isBE ei = true → isBE ej = true → ei.ts ≤ ej.ts) :
    (∀ i j ei ej, i ≤ j → (es ++ chunk).get? i = some ei →
      (es ++ chunk).get? j = some ej → isBE ei = true → isBE ej = true →
      ei.ts ≤ ej.ts) ∧
    (∀ e ∈ es ++ chunk, isBE e = true → e.ts ≤ now) := by
  constructor
  · intro i j ei ej hij hi hj hbei hbej
    by_cases hjl : j < es.length
    · have hil : i < es.length := by omega
      rw [List.get?_append hil] at hi
      rw [List.get?_append hjl] at hj
      exact hmono i j ei ej hij hi hj hbei hbej
    · have hj' : (es ++ chunk).get? j = chunk.get? (j - es.length) :=
        List.get?_append_right (by omega)
      rw [hj'] at hj
      have hejm : ej ∈ chunk := List.get?_mem hj
      rw [hchunk ej hejm hbej]
      by_cases hil : i < es.length
      · rw [List.get?_append hil] at hi
        exact le_trans (hbound ei (List.get?_mem hi) hbei) hTn
      · have hi' : (es ++ chunk).get? i = chunk.get? (i - es.length) :=
          List.get?_append_right (by omega)
        rw [hi'] at hi
        rw [hchunk ei (List.get?_mem hi) hbei]
  · intro e he hbe
    rcases List.mem_append.mp he with h1 | h1
    · exact le_trans (hbound e h1 hbe) hTn
    · exact le_of_eq (hchunk e h1 hbe)

/-- Successful `write` output is exactly `writeEventsPure`, and the state
comes back untouched. -/
theorem write_some_out (st : Chrometrace) (now : Nat)
    (res : List Event × Chrometrace) (h : st.write now = some res) :
    res.1 = writeEventsPure st now ∧ res.2 = st := by
  unfold Chrometrace.write at h
  cases hm : st.prev_traces.mapM
      (fun p => p.2.frames.mapM (fun f => st.event p.2 f phE now)) with
  | none => rw [hm] at h; simp at h
  | some closing =>
    rw [hm] at h
    cases h
    have hcl : closing = st.prev_traces.map (fun p => p.2.frames.map
        (fun f => mkEvent st.show_linenumbers (tidD st p.2.thread_id)
          p.2.pid f phE now)) := by
      apply mapM_option_some_ext _ _ _ _ hm
      intro p _ b hb
      exact mapM_option_some_ext _ _ _ _ hb
        (fun fr _ e he => event_some_ext st p.2 fr phE now e he)
    exact ⟨by rw [writeEventsPure, hcl], rfl⟩

theorem lookup_none_of_forall {β : Type} {l : List (Nat × β)} {k : Nat}
    (h : ∀ p ∈ l, p.1 ≠ k) : l.lookup k = none := by
  induction l with
  | nil => rfl
  | cons p rest ih =>
    obtain ⟨p1, p2⟩ := p
    have hne : p1 ≠ k := h (p1, p2) (List.mem_cons_self _ _)
    have hk : (k == p1) = false := by
      simp only [beq_eq_false_iff_ne]
      exact fun hc => hne hc.symm
    rw [List.lookup_cons]
    simp only [hk]
    exact ih (fun q hq => h q (List.mem_cons_of_mem _ hq))

theorem sum_map_removeKey (g : Nat × StackTrace → Nat)
    (l : List (Nat × StackTrace)) (k : Nat) (pt : StackTrace)
    (huniq : (l.map Prod.fst).Nodup) (hlk : l.lookup k = some pt) :
    (l.map g).sum = g (k, pt) + ((removeKey l k).map g).sum := by
  induction l with
  | nil => simp [List.lookup] at hlk
  | cons p rest ih =>
    obtain ⟨p1, p2⟩ := p
    rw [List.lookup_cons] at hlk
    cases hk : k == p1 with
    | true =>
      rw [hk] at hlk
      simp only at hlk
      cases hlk
      have hkp : k = p1 := by simpa using hk
      subst hkp
      have huniq2 : (k :: rest.map Prod.fst).Nodup := by
        simpa only [List.map_cons] using huniq
      have hnotin : ∀ q ∈ rest, q.1 ≠ k := by
        intro q hq hc
        have hm : k ∈ rest.map Prod.fst := by
          rw [← hc]
          exact List.mem_map_of_mem _ hq
        exact (List.nodup_cons.mp huniq2).1 hm
      have hrk : removeKey rest k = rest :=
        removeKey_of_lookup_none (lookup_none_of_forall hnotin)
      have hhead : ((k, pt).1 != k) = false := by simp
      simp only [removeKey, List.filter_cons, hhead, Bool.false_eq_true,
        if_false]
      rw [List.map_cons, List.sum_cons]
      unfold removeKey at hrk
      rw [hrk]
    | false =>
      rw [hk] at hlk
      simp only at hlk
      have hne : p1 ≠ k := by
        intro hc
        subst hc
        simp at hk
      have huniq2 : (p1 :: rest.map Prod.fst).Nodup := by
        simpa only [List.map_cons] using huniq
      have hhead : ((p1, p2).1 != k) = true := by simpa using hne
      have htail := ih (List.nodup_cons.mp huniq2).2 hlk
      simp only [removeKey, List.filter_cons, hhead, if_true] at htail ⊢
      rw [List.map_cons, List.sum_cons, List.map_cons, List.sum_cons, htail]
      omega

theorem removeKey_map_fst (l : List (Nat × StackTrace)) (k : Nat) :
    (removeKey l k).map Prod.fst = (l.map Prod.fst).filter (fun a => a != k) := by
  induction l with
  | nil => rfl
  | cons p rest ih =>
    obtain ⟨p1, p2⟩ := p
    by_cases hp : p1 = k
    · subst hp
      simpa [removeKey, List.filter_cons] using ih
    · have h2 : (p1 != k) = true := by simpa using hp
      simp [removeKey, List.filter_cons, h2] at ih ⊢
      exact ih

theorem countP_split_frames (p : Frame → Bool) (frames : List Frame) (n : Nat) :
    frames.countP p = ((frames.reverse.drop n).reverse).countP p
      + (frames.reverse.take n).countP p := by
  calc frames.countP p = (frames.reverse).countP p :=
        (List.countP_reverse p frames).symm
    _ = (frames.reverse.take n ++ frames.reverse.drop n).countP p := by
        rw [List.take_append_drop]
    _ = (frames.reverse.take n).countP p + (frames.reverse.drop n).countP p :=
        List.countP_append _ _ _
    _ = ((frames.reverse.drop n).reverse).countP p
          + (frames.reverse.take n).countP p := by
        rw [List.countP_reverse]
        omega

theorem countP_key_eq_of_pointwise (pid tid : Nat) (k : EKey) :
    ∀ (xs ys : List Frame), xs.length = ys.length →
    (∀ i a b, xs.get? i = some a → ys.get? i = some b →
      a.name = b.name ∧ a.filename = b.filename) →
    xs.countP (fun f => decide ((⟨pid, tid, f.name, f.filename⟩ : EKey) = k))
      = ys.countP (fun f => decide ((⟨pid, tid, f.name, f.filename⟩ : EKey) = k)) := by
  intro xs
  induction xs with
  | nil =>
    intro ys hlen _
    cases ys with
    | nil => rfl
    | cons b bs => simp at hlen
  | cons a as ih =>
    intro ys hlen hpt
    cases ys with
    | nil => simp at hlen
    | cons b bs =>
      rw [List.countP_cons, List.countP_cons]
      have hab := hpt 0 a b rfl rfl
      rw [ih bs (by simpa using hlen)
        (fun i x y hx hy => hpt (i + 1) x y (by simpa using hx) (by simpa using hy)),
        hab.1, hab.2]

theorem should_merge_name_filename {st : Chrometrace} {a b : Frame}
    (h : st.should_merge_frames a b = true) :
    a.name = b.name ∧ a.filename = b.filename := by
  unfold Chrometrace.should_merge_frames at h
  simp only [Bool.and_eq_true, beq_iff_eq] at h
  exact ⟨h.1.1, h.1.2⟩

theorem ts_map_event (sl : Bool) (tid pid : Nat) (frames : List Frame)
    (ph : String) (now : Nat) :
    ∀ e ∈ frames.map (fun f => mkEvent sl tid pid f ph now), e.ts = now := by
  intro e he
  rcases List.mem_map.mp he with ⟨f, _, hf⟩
  rw [← hf]
  rfl

theorem countP_split_frames2 (p : Frame → Bool) (frames : List Frame) (n : Nat) :
    frames.countP p = (frames.reverse.drop n).countP p
      + (frames.reverse.take n).countP p := by
  have h := countP_split_frames p frames n
  rwa [List.countP_reverse] at h

theorem frameKeyCnt_eq_of_ids (st st' : Chrometrace)
    (h : st'.thread_ids = st.thread_ids) (p : Nat × StackTrace) (k : EKey) :
    frameKeyCnt st' p k = frameKeyCnt st p k := by
  simp [frameKeyCnt, tidD, h]

theorem shared_counts_eq (st : Chrometrace) (prev_frames frames : List Frame)
    (pid tid : Nat) (k : EKey) :
    (prev_frames.reverse.take (st.new_idx prev_frames frames)).countP
      (fun f => decide ((⟨pid, tid, f.name, f.filename⟩ : EKey) = k))
    = (frames.reverse.take (st.new_idx prev_frames frames)).countP
      (fun f => decide ((⟨pid, tid, f.name, f.filename⟩ : EKey) = k)) := by
  have hmin := new_idx_le_min st prev_frames frames
  have h1 : st.new_idx prev_frames frames ≤ prev_frames.length :=
    le_trans hmin (Nat.min_le_left _ _)
  have h2 : st.new_idx prev_frames frames ≤ frames.length :=
    le_trans hmin (Nat.min_le_right _ _)
  apply countP_key_eq_of_pointwise
  · rw [List.length_take, List.length_take, List.length_reverse,
      List.length_reverse, Nat.min_eq_left h1, Nat.min_eq_left h2]
  · intro i a b ha hb
    have hilen : i < st.new_idx prev_frames frames := by
      obtain ⟨hlt, _⟩ := List.get?_eq_some.mp ha
      rw [List.length_take, List.length_reverse] at hlt
      omega
    rw [List.get?_take hilen] at ha hb
    exact should_merge_name_filename
      (new_idx_merge st prev_frames frames hilen a b ha hb)

/-- Builds the invariant for a post-step state from its relation to the
pre-step state: the log grew by `chunk`, the per-key net effect of `chunk`
matches the change of the open count, `chunk` never closes more than was
open, and its interval events are stamped `now`. -/
theorem logInv_build (pidOf : Nat → Nat) (st st' : Chrometrace) (T now : Nat)
    (hInv : LogInv pidOf st T) (hT : T ≤ now) (chunk : List Event)
    (hev : st'.events = st.events ++ chunk)
    (huniq : (st'.prev_traces.map Prod.fst).Nodup)
    (hreg : ∀ p ∈ st'.prev_traces, (st'.thread_ids.lookup p.1).isSome = true)
    (hkeyEq : ∀ p ∈ st'.prev_traces, p.2.thread_id = p.1)
    (hpids : ∀ p ∈ st'.prev_traces, p.2.pid = pidOf p.1)
    (hkey : ∀ k, cntB chunk k + openCnt st k = cntE chunk k + openCnt st' k)
    (hchunkE : ∀ k, cntE chunk k ≤ openCnt st k)
    (hts : ∀ e ∈ chunk, isBE e = true → e.ts = now) :
    LogInv pidOf st' now := by
  refine ⟨huniq, hreg, hkeyEq, hpids, ?_, ?_, ?_, ?_⟩
  · intro k
    rw [hev]
    exact bal_append st.events chunk (openCnt st) (openCnt st') hInv.bal hkey k
  · intro n k
    rw [hev]
    exact dom_append st.events chunk (openCnt st) hInv.dom hInv.bal hchunkE n k
  · rw [hev]
    exact (mono_append st.events chunk T now hInv.bound hT hts hInv.mono).2
  · rw [hev]
    exact (mono_append st.events chunk T now hInv.bound hT hts hInv.mono).1

theorem logInv_step_reg_prev (pidOf : Nat → Nat) (st : Chrometrace)
    (trace pt : StackTrace) (now T : Nat)
    (hInv : LogInv pidOf st T) (hT : T ≤ now)
    (hp : trace.pid = pidOf trace.thread_id)
    (hreg : (st.thread_ids.lookup trace.thread_id).isSome = true)
    (hprev : st.prev_traces.lookup trace.thread_id = some pt) :
    LogInv pidOf (incrementPure st trace now) now := by
  have hchar := incrementPure_of_reg st trace now hreg pt.frames
    (by simp [hprev]) _ rfl
  have hev : (incrementPure st trace now).events
      = st.events ++
        ((pt.frames.reverse.drop (st.new_idx pt.frames trace.frames)).reverse.map
          (fun f => mkEvent st.show_linenumbers (tidD st trace.thread_id)
            trace.pid f phE now)
        ++ (trace.frames.reverse.drop (st.new_idx pt.frames trace.frames)).map
          (fun f => mkEvent st.show_linenumbers (tidD st trace.thread_id)
            trace.pid f phB now)) := by
    rw [hchar, ← List.append_assoc]
  have hpr : (incrementPure st trace now).prev_traces
      = removeKey st.prev_traces trace.thread_id
        ++ [(trace.thread_id, trace)] := by
    rw [hchar]
  have hids : (incrementPure st trace now).thread_ids = st.thread_ids := by
    rw [hchar]
  have hmem : (trace.thread_id, pt) ∈ st.prev_traces := lookup_mem hprev
  have hkeq : pt.thread_id = trace.thread_id := hInv.keyEq _ hmem
  have hpid2 : pt.pid = trace.pid := by
    rw [hInv.pids _ hmem]
    exact hp.symm
  have hptCnt : ∀ k, frameKeyCnt st (trace.thread_id, pt) k
      = pt.frames.countP (fun f => decide
          ((⟨trace.pid, tidD st trace.thread_id, f.name, f.filename⟩ : EKey) = k)) := by
    intro k
    unfold frameKeyCnt
    rw [show (trace.thread_id, pt).2 = pt from rfl, hkeq, hpid2]
  have hsum1 : ∀ k, openCnt st k = frameKeyCnt st (trace.thread_id, pt) k
      + ((removeKey st.prev_traces trace.thread_id).map
          (fun p => frameKeyCnt st p k)).sum :=
    fun k => sum_map_removeKey (fun p => frameKeyCnt st p k) st.prev_traces
      trace.thread_id pt hInv.uniq hprev
  have hoc : ∀ k, openCnt (incrementPure st trace now) k
      = ((removeKey st.prev_traces trace.thread_id).map
          (fun p => frameKeyCnt st p k)).sum
        + trace.frames.countP (fun f => decide
            ((⟨trace.pid, tidD st trace.thread_id, f.name, f.filename⟩ : EKey) = k)) := by
    intro k
    unfold openCnt
    rw [hpr, List.map_append, List.sum_append]
    congr 1
    · congr 1
      apply List.map_congr_left
      intro p _
      exact frameKeyCnt_eq_of_ids st _ hids p k
    · simp only [List.map_cons, List.map_nil, List.sum_cons, List.sum_nil,
        Nat.add_zero]
      rw [frameKeyCnt_eq_of_ids st _ hids]
      rfl
  have hcntEchunk : ∀ k,
      cntE (((pt.frames.reverse.drop (st.new_idx pt.frames trace.frames)).reverse.map
        (fun f => mkEvent st.show_linenumbers (tidD st trace.thread_id)
          trace.pid f phE now))
       ++ ((trace.frames.reverse.drop (st.new_idx pt.frames trace.frames)).map
        (fun f => mkEvent st.show_linenumbers (tidD st trace.thread_id)
          trace.pid f phB now))) k
      = (pt.frames.reverse.drop (st.new_idx pt.frames trace.frames)).countP
          (fun f => decide
            ((⟨trace.pid, tidD st trace.thread_id, f.name, f.filename⟩ : EKey) = k)) := by
    intro k
    rw [cntE_append, cntE_map_event, cntE_map_event_begin, List.countP_reverse]
    omega
  have hcntBchunk : ∀ k,
      cntB (((pt.frames.reverse.drop (st.new_idx pt.frames trace.frames)).reverse.map
        (fun f => mkEvent st.show_linenumbers (tidD st trace.thread_id)
          trace.pid f phE now))
       ++ ((trace.frames.reverse.drop (st.new_idx pt.frames trace.frames)).map
        (fun f => mkEvent st.show_linenumbers (tidD st trace.thread_id)
          trace.pid f phB now))) k
      = (trace.frames.reverse.drop (st.new_idx pt.frames trace.frames)).countP
          (fun f => decide
            ((⟨trace.pid, tidD st trace.thread_id, f.name, f.filename⟩ : EKey) = k)) := by
    intro k
    rw [cntB_append, cntB_map_event_end, cntB_map_event_begin]
    omega
  refine logInv_build pidOf st (incrementPure st trace now) T now hInv hT _
    hev ?_ ?_ ?_ ?_ ?_ ?_ ?_
  · rw [hpr, List.map_append, removeKey_map_fst, List.nodup_append]
    refine ⟨hInv.uniq.filter _, by simp, ?_⟩
    intro a ha hb
    simp only [List.map_cons, List.map_nil, List.mem_singleton] at hb
    subst hb
    have := (List.mem_filter.mp ha).2
    simp at this
  · intro p hp'
    rw [hpr] at hp'
    rw [hids]
    rcases List.mem_append.mp hp' with h1 | h1
    · exact hInv.reg p (List.mem_of_mem_filter h1)
    · have hp2 : p = (trace.thread_id, trace) := by simpa using h1
      subst hp2
      exact hreg
  · intro p hp'
    rw [hpr] at hp'
    rcases List.mem_append.mp hp' with h1 | h1
    · exact hInv.keyEq p (List.mem_of_mem_filter h1)
    · have hp2 : p = (trace.thread_id, trace) := by simpa using h1
      subst hp2
      rfl
  · intro p hp'
    rw [hpr] at hp'
    rcases List.mem_append.mp hp' with h1 | h1
    · exact hInv.pids p (List.mem_of_mem_filter h1)
    · have hp2 : p = (trace.thread_id, trace) := by simpa using h1
      subst hp2
      exact hp
  · intro k
    rw [hcntBchunk k, hcntEchunk k, hoc k, hsum1 k, hptCnt k]
    have hs1 := countP_split_frames2 (fun f => decide
      ((⟨trace.pid, tidD st trace.thread_id, f.name, f.filename⟩ : EKey) = k))
      pt.frames (st.new_idx pt.frames trace.frames)
    have hs2 := countP_split_frames2 (fun f => decide
      ((⟨trace.pid, tidD st trace.thread_id, f.name, f.filename⟩ : EKey) = k))
      trace.frames (st.new_idx pt.frames trace.frames)
    have hsh := shared_counts_eq st pt.frames trace.frames trace.pid
      (tidD st trace.thread_id) k
    omega
  · intro k
    rw [hcntEchunk k, hsum1 k, hptCnt k]
    have hle : (pt.frames.reverse.drop (st.new_idx pt.frames trace.frames)).countP
        (fun f => decide
          ((⟨trace.pid, tidD st trace.thread_id, f.name, f.filename⟩ : EKey) = k))
        ≤ pt.frames.countP (fun f => decide
          ((⟨trace.pid, tidD st trace.thread_id, f.name, f.filename⟩ : EKey) = k)) := by
      rw [← List.countP_reverse _ pt.frames]
      exact (List.drop_sublist _ _).countP_le _
    omega
  · intro e he _
    rcases List.mem_append.mp he with h1 | h1
    · exact ts_map_event _ _ _ _ _ _ e h1
    · exact ts_map_event _ _ _ _ _ _ e h1

theorem logInv_step_reg_noprev (pidOf : Nat → Nat) (st : Chrometrace)
    (trace : StackTrace) (now T : Nat)
    (hInv : LogInv pidOf st T) (hT : T ≤ now)
    (hp : trace.pid = pidOf trace.thread_id)
    (hreg : (st.thread_ids.lookup trace.thread_id).isSome = true)
    (hnoprev : st.prev_traces.lookup trace.thread_id = none) :
    LogInv pidOf (incrementPure st trace now) now := by
  have hchar := incrementPure_of_reg st trace now hreg []
    (by simp [hnoprev]) 0 (new_idx_nil_left st trace.frames).symm
  have hev : (incrementPure st trace now).events
      = st.events ++ trace.frames.reverse.map
          (fun f => mkEvent st.show_linenumbers (tidD st trace.thread_id)
            trace.pid f phB now) := by
    rw [hchar]
    simp
  have hpr : (incrementPure st trace now).prev_traces
      = st.prev_traces ++ [(trace.thread_id, trace)] := by
    rw [hchar]
    show removeKey st.prev_traces trace.thread_id ++ [(trace.thread_id, trace)]
      = st.prev_traces ++ [(trace.thread_id, trace)]
    rw [removeKey_of_lookup_none hnoprev]
  have hids : (incrementPure st trace now).thread_ids = st.thread_ids := by
    rw [hchar]
  have hoc : ∀ k, openCnt (incrementPure st trace now) k
      = openCnt st k + trace.frames.countP (fun f => decide
          ((⟨trace.pid, tidD st trace.thread_id, f.name, f.filename⟩ : EKey) = k)) := by
    intro k
    unfold openCnt
    rw [hpr, List.map_append, List.sum_append]
    congr 1
    · congr 1
      apply List.map_congr_left
      intro p _
      exact frameKeyCnt_eq_of_ids st _ hids p k
    · simp only [List.map_cons, List.map_nil, List.sum_cons, List.sum_nil,
        Nat.add_zero]
      rw [frameKeyCnt_eq_of_ids st _ hids]
      rfl
  have hid_notin : ∀ a ∈ st.prev_traces.map Prod.fst, a ≠ trace.thread_id := by
    intro a ha hc
    subst hc
    rcases List.mem_map.mp ha with ⟨p, hpmem, hpa⟩
    exact lookup_none_forall hnoprev p hpmem hpa
  refine logInv_build pidOf st (incrementPure st trace now) T now hInv hT _
    hev ?_ ?_ ?_ ?_ ?_ ?_ ?_
  · rw [hpr, List.map_append, List.nodup_append]
    refine ⟨hInv.uniq, by simp, ?_⟩
    intro a ha hb
    simp only [List.map_cons, List.map_nil, List.mem_singleton] at hb
    exact hid_notin a ha hb
  · intro p hp'
    rw [hpr] at hp'
    rw [hids]
    rcases List.mem_append.mp hp' with h1 | h1
    · exact hInv.reg p h1
    · have hp2 : p = (trace.thread_id, trace) := by simpa using h1
      subst hp2
      exact hreg
  · intro p hp'
    rw [hpr] at hp'
    rcases List.mem_append.mp hp' with h1 | h1
    · exact hInv.keyEq p h1
    · have hp2 : p = (trace.thread_id, trace) := by simpa using h1
      subst hp2
      rfl
  · intro p hp'
    rw [hpr] at hp'
    rcases List.mem_append.mp hp' with h1 | h1
    · exact hInv.pids p h1
    · have hp2 : p = (trace.thread_id, trace) := by simpa using h1
      subst hp2
      exact hp
  · intro k
    rw [cntB_map_event_begin, cntE_map_event_begin, hoc k, List.countP_reverse]
    omega
  · intro k
    rw [cntE_map_event_begin]
    omega
  · intro e he _
    exact ts_map_event _ _ _ _ _ _ e he

theorem logInv_step_unreg (pidOf : Nat → Nat) (st : Chrometrace)
    (trace : StackTrace) (now T : Nat)
    (hInv : LogInv pidOf st T) (hT : T ≤ now)
    (hp : trace.pid = pidOf trace.thread_id)
    (hreg : st.thread_ids.lookup trace.thread_id = none) :
    LogInv pidOf (incrementPure st trace now) now := by
  have hnoprev : st.prev_traces.lookup trace.thread_id = none := by
    cases hx : st.prev_traces.lookup trace.thread_id with
    | none => rfl
    | some pt =>
      have hmem := lookup_mem hx
      have := hInv.reg _ hmem
      rw [hreg] at this
      simp at this
  have hchar := incrementPure_of_unreg st trace now hreg hnoprev
  have hev : (incrementPure st trace now).events
      = st.events ++ ([mdEvent trace (st.thread_ids.length % 4294967296)]
        ++ trace.frames.reverse.map
          (fun f => mkEvent st.show_linenumbers
            (st.thread_ids.length % 4294967296) trace.pid f phB now)) := by
    rw [hchar, ← List.append_assoc]
  have hpr : (incrementPure st trace now).prev_traces
      = st.prev_traces ++ [(trace.thread_id, trace)] := by
    rw [hchar]
  have hids : (incrementPure st trace now).thread_ids
      = st.thread_ids
        ++ [(trace.thread_id, st.thread_ids.length % 4294967296)] := by
    rw [hchar]
  have hlook_new : (incrementPure st trace now).thread_ids.lookup trace.thread_id
      = some (st.thread_ids.length % 4294967296) := by
    rw [hids, lookup_append_right hreg, lookup_singleton_self]
  have hlook_old : ∀ p ∈ st.prev_traces,
      (incrementPure st trace now).thread_ids.lookup p.1
        = st.thread_ids.lookup p.1 := by
    intro p hpmem
    rw [hids]
    exact lookup_append_left (hInv.reg p hpmem)
  have hfkc_old : ∀ p ∈ st.prev_traces, ∀ k,
      frameKeyCnt (incrementPure st trace now) p k = frameKeyCnt st p k := by
    intro p hpmem k
    unfold frameKeyCnt tidD
    rw [hInv.keyEq p hpmem, hlook_old p hpmem]
  have hoc : ∀ k, openCnt (incrementPure st trace now) k
      = openCnt st k + trace.frames.countP (fun f => decide
          ((⟨trace.pid, st.thread_ids.length % 4294967296,
            f.name, f.filename⟩ : EKey) = k)) := by
    intro k
    unfold openCnt
    rw [hpr, List.map_append, List.sum_append]
    congr 1
    · congr 1
      exact List.map_congr_left (fun p hpmem => hfkc_old p hpmem k)
    · simp only [List.map_cons, List.map_nil, List.sum_cons, List.sum_nil,
        Nat.add_zero]
      unfold frameKeyCnt tidD
      rw [show ((trace.thread_id, trace) : Nat × StackTrace).2 = trace from rfl]
      rw [show (trace : StackTrace).thread_id = trace.thread_id from rfl]
      rw [show ((trace.thread_id, trace) : Nat × StackTrace).2.thread_id
        = trace.thread_id from rfl, hlook_new]
      rfl
  have hid_notin : ∀ a ∈ st.prev_traces.map Prod.fst, a ≠ trace.thread_id := by
    intro a ha hc
    subst hc
    rcases List.mem_map.mp ha with ⟨p, hpmem, hpa⟩
    have := hInv.reg p hpmem
    rw [hpa, hreg] at this
    simp at this
  refine logInv_build pidOf st (incrementPure st trace now) T now hInv hT _
    hev ?_ ?_ ?_ ?_ ?_ ?_ ?_
  · rw [hpr, List.map_append, List.nodup_append]
    refine ⟨hInv.uniq, by simp, ?_⟩
    intro a ha hb
    simp only [List.map_cons, List.map_nil, List.mem_singleton] at hb
    exact hid_notin a ha hb
  · intro p hp'
    rw [hpr] at hp'
    rcases List.mem_append.mp hp' with h1 | h1
    · rw [hlook_old p h1]
      exact hInv.reg p h1
    · have hp2 : p = (trace.thread_id, trace) := by simpa using h1
      subst hp2
      rw [show ((trace.thread_id, trace) : Nat × StackTrace).1
        = trace.thread_id from rfl, hlook_new]
      rfl
  · intro p hp'
    rw [hpr] at hp'
    rcases List.mem_append.mp hp' with h1 | h1
    · exact hInv.keyEq p h1
    · have hp2 : p = (trace.thread_id, trace) := by simpa using h1
      subst hp2
      rfl
  · intro p hp'
    rw [hpr] at hp'
    rcases List.mem_append.mp hp' with h1 | h1
    · exact hInv.pids p h1
    · have hp2 : p = (trace.thread_id, trace) := by simpa using h1
      subst hp2
      exact hp
  · intro k
    rw [cntB_append, cntE_append, cntB_md, cntE_md, cntB_map_event_begin,
      cntE_map_event_begin, hoc k, List.countP_reverse]
    omega
  · intro k
    rw [cntE_append, cntE_md, cntE_map_event_begin]
    omega
  · intro e he hbe
    rcases List.mem_append.mp he with h1 | h1
    · rw [List.mem_singleton] at h1
      subst h1
      rw [isBE_md] at hbe
      cases hbe
    · exact ts_map_event _ _ _ _ _ _ e h1

theorem logInv_increment (pidOf : Nat → Nat) (st : Chrometrace)
    (trace : StackTrace) (now T : Nat)
    (hInv : LogInv pidOf st T) (hT : T ≤ now)
    (hp : trace.pid = pidOf trace.thread_id) :
    LogInv pidOf (incrementPure st trace now) now := by
  cases hreg : st.thread_ids.lookup trace.thread_id with
  | some v =>
    have hreg' : (st.thread_ids.lookup trace.thread_id).isSome = true := by
      simp [hreg]
    cases hprev : st.prev_traces.lookup trace.thread_id with
    | some pt =>
      exact logInv_step_reg_prev pidOf st trace pt now T hInv hT hp hreg' hprev
    | none =>
      exact logInv_step_reg_noprev pidOf st trace now T hInv hT hp hreg' hprev
  | none => exact logInv_step_unreg pidOf st trace now T hInv hT hp hreg

theorem logInv_mono (pidOf : Nat → Nat) (st : Chrometrace) (T T' : Nat)
    (h : LogInv pidOf st T) (hTT : T ≤ T') : LogInv pidOf st T' :=
  ⟨h.uniq, h.reg, h.keyEq, h.pids, h.bal, h.dom,
   fun e he hbe => le_trans (h.bound e he hbe) hTT, h.mono⟩

theorem logInv_init (pidOf : Nat → Nat) (b : Bool) :
    LogInv pidOf (Chrometrace.new b) 0 := by
  refine ⟨?_, ?_, ?_, ?_, ?_, ?_, ?_, ?_⟩
  · simp [Chrometrace.new]
  · intro p hp
    simp [Chrometrace.new] at hp
  · intro p hp
    simp [Chrometrace.new] at hp
  · intro p hp
    simp [Chrometrace.new] at hp
  · intro k
    rfl
  · intro n k
    show cntE (List.take n []) k ≤ cntB (List.take n []) k
    rw [List.take_nil]
    exact le_rfl
  · intro e he
    simp [Chrometrace.new] at he
  · intro i j ei ej _ hi
    simp [Chrometrace.new, List.get?] at hi

theorem logInv_run (pidOf : Nat → Nat) :
    ∀ (l : List (StackTrace × Nat)) (st : Chrometrace) (T : Nat),
      LogInv pidOf st T →
      (∀ p ∈ l, T ≤ p.2) →
      l.Pairwise (fun a b => a.2 ≤ b.2) →
      (∀ p ∈ l, p.1.pid = pidOf p.1.thread_id) →
      ∀ T', T ≤ T' → (∀ p ∈ l, p.2 ≤ T') →
      LogInv pidOf (runPure st l) T' := by
  intro l
  induction l with
  | nil =>
    intro st T h _ _ _ T' hTT _
    exact logInv_mono pidOf st T T' h hTT
  | cons p rest ih =>
    intro st T hInv hge hpw hpid T' hTT' hle
    have hstep : LogInv pidOf (incrementPure st p.1 p.2) p.2 :=
      logInv_increment pidOf st p.1 p.2 T hInv
        (hge p (List.mem_cons_self _ _)) (hpid p (List.mem_cons_self _ _))
    have hpw' := List.pairwise_cons.mp hpw
    exact ih (incrementPure st p.1 p.2) p.2 hstep
      (fun q hq => hpw'.1 q hq) hpw'.2
      (fun q hq => hpid q (List.mem_cons_of_mem _ hq)) T'
      (hle p (List.mem_cons_self _ _))
      (fun q hq => hle q (List.mem_cons_of_mem _ hq))

theorem closing_cntE (st : Chrometrace) (now : Nat) (k : EKey) :
    cntE ((st.prev_traces.map (fun p => p.2.frames.map
      (fun f => mkEvent st.show_linenumbers (tidD st p.2.thread_id)
        p.2.pid f phE now))).flatten) k = openCnt st k := by
  unfold cntE openCnt
  rw [List.countP_flatten, List.map_map]
  congr 1
  apply List.map_congr_left
  intro p _
  simp only [Function.comp]
  exact cntE_map_event st.show_linenumbers (tidD st p.2.thread_id) p.2.pid
    p.2.frames now k

theorem closing_cntB (st : Chrometrace) (now : Nat) (k : EKey) :
    cntB ((st.prev_traces.map (fun p => p.2.frames.map
      (fun f => mkEvent st.show_linenumbers (tidD st p.2.thread_id)
        p.2.pid f phE now))).flatten) k = 0 := by
  unfold cntB
  rw [List.countP_flatten, List.map_map]
  apply List.sum_eq_zero
  intro x hx
  rcases List.mem_map.mp hx with ⟨p, _, hp⟩
  rw [← hp]
  simp only [Function.comp]
  exact cntB_map_event_end st.show_linenumbers (tidD st p.2.thread_id) p.2.pid
    p.2.frames now k

theorem closing_ts (st : Chrometrace) (now : Nat) :
    ∀ e ∈ (st.prev_traces.map (fun p => p.2.frames.map
      (fun f => mkEvent st.show_linenumbers (tidD st p.2.thread_id)
        p.2.pid f phE now))).flatten, e.ts = now ∧ e.ph = phE := by
  intro e he
  rcases List.mem_flatten.mp he with ⟨sub, hsub, hesub⟩
  rcases List.mem_map.mp hsub with ⟨p, _, hp⟩
  rw [← hp] at hesub
  rcases List.mem_map.mp hesub with ⟨fr, _, hfr⟩
  rw [← hfr]
  exact ⟨rfl, rfl⟩

/-- From per-key balance, prefix dominance and timestamp monotonicity,
every Begin has a later End of the same key with a later-or-equal
timestamp (the canonical bracket matching exists). -/
theorem exists_end_after (L : List Event)
    (hbal : ∀ k, cntB L k = cntE L k)
    (hdom : ∀ n k, cntE (L.take n) k ≤ cntB (L.take n) k)
    (hmono : ∀ i j ei ej, i ≤ j → L.get? i = some ei → L.get? j = some ej →
      isBE ei = true → isBE ej = true → ei.ts ≤ ej.ts)
    (i : Nat) (ei : Event) (hi : L.get? i = some ei) (hB : ei.ph = phB) :
    ∃ j ej, i < j ∧ L.get? j = some ej ∧ ej.ph = phE ∧
      evKey ej = evKey ei ∧ ei.ts ≤ ej.ts := by
  have htake : L.take (i + 1) = L.take i ++ [ei] := by
    rw [List.take_succ, ← List.get?_eq_getElem?, hi]
    rfl
  have hB1 : cntB (L.take (i + 1)) (evKey ei)
      = cntB (L.take i) (evKey ei) + 1 := by
    rw [htake, cntB_append]
    have h1 : cntB [ei] (evKey ei) = 1 := by
      have hbb : (phB == phB) = true := by decide
      simp [cntB, List.countP_cons, hB, hbb]
    omega
  have hE1 : cntE (L.take (i + 1)) (evKey ei) = cntE (L.take i) (evKey ei) := by
    rw [htake, cntE_append]
    have h1 : cntE [ei] (evKey ei) = 0 := by
      have hbe : (phB == phE) = false := by decide
      simp [cntE, List.countP_cons, hB, hbe]
    omega
  have hd := hdom i (evKey ei)
  have hle1 : cntB (L.take (i + 1)) (evKey ei) ≤ cntB L (evKey ei) :=
    cntB_take_le _ _ _
  have hsplitL : cntE L (evKey ei) = cntE (L.take (i + 1)) (evKey ei)
      + cntE (L.drop (i + 1)) (evKey ei) := by
    conv_lhs => rw [← List.take_append_drop (i + 1) L]
    exact cntE_append _ _ _
  have hpos : 0 < cntE (L.drop (i + 1)) (evKey ei) := by
    have hb := hbal (evKey ei)
    omega
  obtain ⟨e2, hmem2, hp2⟩ := List.countP_pos.mp hpos
  have hp2' : e2.ph = phE ∧ evKey e2 = evKey ei := by
    simp only [Bool.and_eq_true, beq_iff_eq, decide_eq_true_eq] at hp2
    exact hp2
  obtain ⟨m, hm⟩ := List.get?_of_mem hmem2
  have hLm : L.get? (i + 1 + m) = some e2 := by
    rw [← List.get?_drop]
    exact hm
  have hbei : isBE ei = true := by
    have hbb : (phB == phB) = true := by decide
    simp [isBE, hB, hbb]
  have hbe2 : isBE e2 = true := by
    have hee : (phE == phE) = true := by decide
    simp [isBE, hp2'.1, hee]
  exact ⟨i + 1 + m, e2, by omega, hLm, hp2'.1, hp2'.2,
    hmono i (i + 1 + m) ei e2 (by omega) hi hLm hbei hbe2⟩

/-- C4: over any session — a monotone-clock sequence of `increment` calls
from a fresh engine, each thread belonging to a fixed process, followed by
`write` — the written event list `L` satisfies: per (pid, tid, name,
filename) key the numbers of Begin and End events are equal (no thread is
left with an open interval: `write` synthesizes one End per frame still
stored in `last`, at the current elapsed timestamp), no prefix of `L` has
more Ends than Begins for any key (so the canonical matching pairing the
n-th Begin of a key with its n-th End is a bijection placing each End
after its Begin), interval-event timestamps are nondecreasing along `L`,
and every Begin event is followed by an End event of the same key with
`End.ts ≥ Begin.ts`. -/
theorem c4_matched_intervals (b : Bool) (pidOf : Nat → Nat)
    (l : List (StackTrace × Nat)) (nowW : Nat) (st stW : Chrometrace)
    (L : List Event)
    (hpid : ∀ p ∈ l, p.1.pid = pidOf p.1.thread_id)
    (hmono : l.Pairwise (fun a b => a.2 ≤ b.2))
    (hlast : ∀ p ∈ l, p.2 ≤ nowW)
    (hrun : runO (Chrometrace.new b) l = some st)
    (hw : st.write nowW = some (L, stW)) :
    (∀ k, cntB L k = cntE L k) ∧
    (∀ n k, cntE (L.take n) k ≤ cntB (L.take n) k) ∧
    (∀ i j ei ej, i ≤ j → L.get? i = some ei → L.get? j = some ej →
      isBE ei = true → isBE ej = true → ei.ts ≤ ej.ts) ∧
    (∀ i ei, L.get? i = some ei → ei.ph = phB →
      ∃ j ej, i < j ∧ L.get? j = some ej ∧ ej.ph = phE ∧
        evKey ej = evKey ei ∧ ei.ts ≤ ej.ts) := by
  rw [runO_eq] at hrun
  have hst : st = runPure (Chrometrace.new b) l := by
    cases hrun
    rfl
  subst hst
  have hInv : LogInv pidOf (runPure (Chrometrace.new b) l) nowW :=
    logInv_run pidOf l (Chrometrace.new b) 0 (logInv_init pidOf b)
      (fun p _ => Nat.zero_le _) hmono hpid nowW (Nat.zero_le _) hlast
  obtain ⟨hL, _⟩ := write_some_out _ nowW (L, stW) hw
  dsimp only at hL
  rw [writeEventsPure] at hL
  have hbal : ∀ k, cntB L k = cntE L k := by
    intro k
    rw [hL, cntB_append, cntE_append, closing_cntB, closing_cntE]
    have := hInv.bal k
    omega
  have hdom : ∀ n k, cntE (L.take n) k ≤ cntB (L.take n) k := by
    intro n k
    rw [hL]
    exact dom_append _ _ (openCnt _) hInv.dom hInv.bal
      (fun k2 => by rw [closing_cntE]) n k
  have hmono' : ∀ i j ei ej, i ≤ j → L.get? i = some ei →
      L.get? j = some ej → isBE ei = true → isBE ej = true →
      ei.ts ≤ ej.ts := by
    rw [hL]
    exact (mono_append _ _ nowW nowW hInv.bound le_rfl
      (fun e he _ => (closing_ts _ _ e he).1) hInv.mono).1
  exact ⟨hbal, hdom, hmono',
    fun i ei hi hB => exists_end_after L hbal hdom hmono' i ei hi hB⟩

theorem c4_witness :
    runO (Chrometrace.new true) [(w4tr, 0)] = some w4run ∧
    w4run.write 1 = some (w4events, w4run) ∧
    cntB w4events w4key = cntE w4events w4key :=
  ⟨runO_eq _ _, write_eq w4run 1 (by decide),
   (c4_matched_intervals true (fun _ => 1) [(w4tr, 0)] 1 w4run w4run w4events
     (by decide) (by simp) (by decide) (runO_eq _ _)
     (write_eq w4run 1 (by decide))).1 w4key⟩

theorem c9_witness :
    (Chrometrace.new false).increment w9tr 2
      = some (incrementPure (Chrometrace.new false) w9tr 2) ∧
    (incrementPure (Chrometrace.new false) w9tr 2).events
      = (recordPure (Chrometrace.new false) w9tr).events
        ++ w9tr.frames.reverse.map (fun f =>
            mkEvent (Chrometrace.new false).show_linenumbers
              (tidD (recordPure (Chrometrace.new false) w9tr) w9tr.thread_id)
              w9tr.pid f phB 2) :=
  ⟨(c9_no_error_path (Chrometrace.new false) w9tr 2).1,
   (c9_no_error_path (Chrometrace.new false) w9tr 2).2 rfl⟩
